import Mathlib

/-!
Verification development for the pieces BitTorrent client.

Byte strings are modelled as `List Nat` (one entry per byte).  Python
exceptions are modelled by the `PyErr` type and `Except`-valued functions.
Each definition mirrors one function of the source tree; the source file and
function are named in the doc comment.
-/

set_option maxHeartbeats 1000000

/-- Python exception kinds raised by the modelled code. `fuelError` is an
artefact of the bounded-recursion embedding of the bencoding decoder; it can
only fire on inputs where the source also fails (see `Bencoding.decodeD`). -/
inductive PyErr where
  | eofError
  | indexError
  | runtimeError
  | valueError
  | typeError
  | structError
  | attributeError
  | keyError
  | fuelError
deriving DecidableEq, Repr

deriving instance DecidableEq for Except

namespace Bencoding

/- The universe of values the bencoding codec works on, mirroring the Python
dynamic values produced by `Decoder.decode` in src/pieces/bencoding.py:
`int`, `bytes`, `list`, `OrderedDict` (insertion ordered), and Python `None`
(which `decode` returns on a leading end token).  Lists and ordered mappings
are given by the mutually inductive `BList` and `BPairs` so that structural
induction over the three types is available. -/
mutual
inductive BValue where
  | pynone : BValue
  | int : Int → BValue
  | str : List Nat → BValue
  | list : BList → BValue
  | dict : BPairs → BValue
deriving DecidableEq, Repr

inductive BList where
  | nil : BList
  | cons : BValue → BList → BList
deriving DecidableEq, Repr

inductive BPairs where
  | nil : BPairs
  | cons : BValue → BValue → BPairs → BPairs
deriving DecidableEq, Repr
end

/-- The literal digit byte classifier `b'01234567899'` of
`Decoder.decode` (src/pieces/bencoding.py line 67), duplicate digit included. -/
def pyDigits : List Nat := [48, 49, 50, 51, 52, 53, 54, 55, 56, 57, 57]

/-- Structural helper for `natToDigits`: the first argument is recursion fuel
(any value above the number itself is enough). -/
def natToDigitsF : Nat → Nat → List Nat
  | 0, _ => []
  | fuel + 1, n =>
      if n < 10 then [48 + n]
      else natToDigitsF fuel (n / 10) ++ [48 + n % 10]

/-- Decimal ASCII digits of a natural number, as Python `str` produces them
(no sign, no leading zeroes, `0` for zero). -/
def natToDigits (n : Nat) : List Nat := natToDigitsF (n + 1) n

/-- Decimal ASCII representation of an integer, as Python `str` produces it:
an optional minus sign followed by the digits of the absolute value. -/
def intRepr (n : Int) : List Nat :=
  if n < 0 then 45 :: natToDigits n.natAbs else natToDigits n.natAbs

/-- Accumulating decimal parser used by `pyInt`: fails on any non-digit byte. -/
def digitsValAux : List Nat → Nat → Option Nat
  | [], acc => some acc
  | d :: ds, acc =>
      if 48 ≤ d ∧ d ≤ 57 then digitsValAux ds (acc * 10 + (d - 48)) else none

/-- Python `int(bytes)` on the inputs this codec feeds it: an optional leading
minus sign followed by one or more decimal digits; anything else raises
`ValueError`.  (Python additionally strips whitespace and allows a plus sign
and digit-group underscores; the codec never produces those shapes and the
claims never exercise them.)  Note that `int` imposes no canonicality:
`b"-0"` yields `0` and leading zeroes are accepted. -/
def pyInt : List Nat → Except PyErr Int
  | [] => .error .valueError
  | c :: cs =>
      if c = 45 then
        if cs = [] then .error .valueError
        else
          match digitsValAux cs 0 with
          | some n => .ok (-(n : Int))
          | none => .error .valueError
      else
        match digitsValAux (c :: cs) 0 with
        | some n => .ok (n : Int)
        | none => .error .valueError

/-- `Decoder._peek` (src/pieces/bencoding.py lines 73-79): the next byte, or
`none` once `index + 1 ≥ len(data)` (note the off-by-one of the source: the
final byte of the buffer is never peekable). -/
def peekB (data : List Nat) (i : Nat) : Option Nat :=
  if i + 1 ≥ data.length then none else data.get? i

/-- `Decoder._read` (src/pieces/bencoding.py lines 87-96): read `len` bytes
from position `i`, failing with `IndexError` when they are not all present. -/
def readB (data : List Nat) (i : Nat) (len : Nat) : Except PyErr (List Nat × Nat) :=
  if i + len > data.length then .error .indexError
  else .ok ((data.drop i).take len, i + len)

/-- Position of the first occurrence of a byte in a buffer (`bytes.index`
restricted to a one-byte needle, as `_read_until` uses it). -/
def bIndex : List Nat → Nat → Option Nat
  | [], _ => none
  | b :: bs, tok => if b = tok then some 0 else (bIndex bs tok).map (· + 1)

/-- `Decoder._read_until` (src/pieces/bencoding.py lines 98-110): the bytes
from position `i` up to the first occurrence of `tok` at or after `i`, and the
position just past that occurrence; `RuntimeError` when `tok` never occurs. -/
def read_until (data : List Nat) (i : Nat) (tok : Nat) : Except PyErr (List Nat × Nat) :=
  match bIndex (data.drop i) tok with
  | none => .error .runtimeError
  | some k => .ok ((data.drop i).take k, i + k + 1)

/-- `Decoder._decode_int` (src/pieces/bencoding.py lines 112-113):
`int(self._read_until(TOKEN_END))` — no canonicality check of any kind. -/
def decode_int (data : List Nat) (i : Nat) : Except PyErr (BValue × Nat) :=
  match read_until data i 101 with
  | .error e => .error e
  | .ok (s, j) =>
      match pyInt s with
      | .error e => .error e
      | .ok n => .ok (.int n, j)

/-- `Decoder._decode_string` (src/pieces/bencoding.py lines 132-135).  The
parsed length is nonnegative whenever this is reached (the dispatching byte is
a digit and `pyInt` rejects interior signs), so `Int.toNat` is exact. -/
def decode_string (data : List Nat) (i : Nat) : Except PyErr (BValue × Nat) :=
  match read_until data i 58 with
  | .error e => .error e
  | .ok (s, j) =>
      match pyInt s with
      | .error e => .error e
      | .ok n =>
          match readB data j n.toNat with
          | .error e => .error e
          | .ok (d, k) => .ok (.str d, k)

/-- `OrderedDict.__setitem__`: replace the value in place when the key is
already present (keeping its position), otherwise append the pair. -/
def insertPair : BPairs → BValue → BValue → BPairs
  | .nil, k, v => .cons k v .nil
  | .cons k0 v0 tl, k, v =>
      if k0 = k then .cons k0 v tl else .cons k0 v0 (insertPair tl k v)

/- `Decoder.decode` and its `_decode_list` / `_decode_dict` loops
(src/pieces/bencoding.py lines 47-71 and 115-130), embedded with a recursion
fuel.  The fuel only bounds the call depth; `decodeValue` supplies
`data.length + 1`, which the round-trip lemmas show is ample for every
encoded value, and on inputs where it could run out the source fails too
(every call chain without a byte consumed is a parse error in the source).
The `101` dispatch returns Python `None` (`pynone`) without consuming, exactly
as line 66 of the source does. -/
mutual
def decodeD : Nat → List Nat → Nat → Except PyErr (BValue × Nat)
  | 0, _, _ => .error .fuelError
  | fuel + 1, data, i =>
      match peekB data i with
      | none => .error .eofError
      | some c =>
          if c = 105 then decode_int data (i + 1)
          else if c = 108 then
            match decodeListD fuel data (i + 1) with
            | .error e => .error e
            | .ok (xs, j) => .ok (.list xs, j)
          else if c = 100 then
            match decodeDictD fuel data (i + 1) .nil with
            | .error e => .error e
            | .ok (ps, j) => .ok (.dict ps, j)
          else if c = 101 then .ok (.pynone, i)
          else if pyDigits.contains c then decode_string data i
          else .error .runtimeError

def decodeListD : Nat → List Nat → Nat → Except PyErr (BList × Nat)
  | 0, _, _ => .error .fuelError
  | fuel + 1, data, i =>
      if data.get? i = some 101 then .ok (.nil, i + 1)
      else
        match decodeD fuel data i with
        | .error e => .error e
        | .ok (v, j) =>
            match decodeListD fuel data j with
            | .error e => .error e
            | .ok (tl, k) => .ok (.cons v tl, k)

def decodeDictD : Nat → List Nat → Nat → BPairs → Except PyErr (BPairs × Nat)
  | 0, _, _, _ => .error .fuelError
  | fuel + 1, data, i, acc =>
      if data.get? i = some 101 then .ok (acc, i + 1)
      else
        match decodeD fuel data i with
        | .error e => .error e
        | .ok (k, j) =>
            match decodeD fuel data j with
            | .error e => .error e
            | .ok (v, j2) => decodeDictD fuel data j2 (insertPair acc k v)
end

/-- `Decoder(data).decode()`: decode one value starting at position 0
(trailing bytes are ignored, as in the source). -/
def decodeValue (data : List Nat) : Except PyErr BValue :=
  (decodeD (data.length + 1) data 0).map Prod.fst

/- `Encoder.encode_next` together with `_encode_int`, `_encode_bytes`,
`_encode_list` and `_encode_dict` (src/pieces/bencoding.py lines 162-207),
restricted to decoder-producible values.  `none` models the source returning
Python `None` for an unsupported value (`pynone` here) and the exceptions its
container encoders raise when such a value is embedded (`TypeError` from the
list join, `RuntimeError` "Bad dict" from the dict check `if key and value`,
mirrored by the emptiness test below). -/
mutual
def encode_next : BValue → Option (List Nat)
  | .pynone => none
  | .int n => some (105 :: (intRepr n ++ [101]))
  | .str s => some (natToDigits s.length ++ 58 :: s)
  | .list xs =>
      match encode_list xs with
      | some bs => some (108 :: (bs ++ [101]))
      | none => none
  | .dict ps =>
      match encode_dict ps with
      | some bs => some (100 :: (bs ++ [101]))
      | none => none

def encode_list : BList → Option (List Nat)
  | .nil => some []
  | .cons v tl =>
      match encode_next v, encode_list tl with
      | some bv, some bt => some (bv ++ bt)
      | _, _ => none

def encode_dict : BPairs → Option (List Nat)
  | .nil => some []
  | .cons k v tl =>
      match encode_next k, encode_next v with
      | some kb, some vb =>
          if kb ≠ [] ∧ vb ≠ [] then
            match encode_dict tl with
            | some bs => some (kb ++ vb ++ bs)
            | none => none
          else none
      | _, _ => none
end

/-- Key membership in an ordered mapping. -/
def hasKeyP : BPairs → BValue → Bool
  | .nil, _ => false
  | .cons k0 _ tl, k => k0 = k || hasKeyP tl k

/-- Lookup in an ordered mapping (first matching key). -/
def getKeyP : BPairs → BValue → Option BValue
  | .nil, _ => none
  | .cons k0 v0 tl, k => if k0 = k then some v0 else getKeyP tl k

/-- Append of ordered mappings (used to state the dictionary loop lemma). -/
def appendP : BPairs → BPairs → BPairs
  | .nil, q => q
  | .cons k v tl, q => .cons k v (appendP tl q)

/-- Test for the byte-string variant (used by the canonicality predicate). -/
def isStrB : BValue → Bool
  | .str _ => true
  | _ => false

/- Canonical bencoded values in the sense of the spec: built from integers,
byte strings, sequences and mappings whose keys are byte strings, pairwise
distinct, still in their decode order.  (`pynone` is not canonical.) -/
mutual
def canonicalV : BValue → Bool
  | .pynone => false
  | .int _ => true
  | .str _ => true
  | .list xs => canonicalL xs
  | .dict ps => canonicalP ps

def canonicalL : BList → Bool
  | .nil => true
  | .cons v tl => canonicalV v && canonicalL tl

def canonicalP : BPairs → Bool
  | .nil => true
  | .cons k v tl =>
      isStrB k && canonicalV v && !hasKeyP tl k && canonicalP tl
end

/- Fuel sufficient for `decodeD` to decode one encoded value (with `fuelL`
and `fuelP` for the list and dictionary loops). -/
mutual
def fuelV : BValue → Nat
  | .pynone => 1
  | .int _ => 1
  | .str _ => 1
  | .list xs => 1 + fuelL xs
  | .dict ps => 1 + fuelP ps

def fuelL : BList → Nat
  | .nil => 1
  | .cons v tl => 1 + max (fuelV v) (fuelL tl)

def fuelP : BPairs → Nat
  | .nil => 1
  | .cons k v tl => 1 + max (fuelV k) (max (fuelV v) (fuelP tl))
end

end Bencoding

namespace Torrent

open Bencoding

/-- Byte string `b"info"`. -/
def infoKey : List Nat := [105, 110, 102, 111]

/-- Byte string `b"files"`. -/
def filesKey : List Nat := [102, 105, 108, 101, 115]

/-- Byte string `b"name"`. -/
def nameKey : List Nat := [110, 97, 109, 101]

/-- Byte string `b"length"`. -/
def lengthKey : List Nat := [108, 101, 110, 103, 116, 104]

/-- Byte string `b"path"`. -/
def pathKey : List Nat := [112, 97, 116, 104]

/-- Python `mapping[key]` on a decoded metainfo mapping: `KeyError` when the
key is missing. -/
def dictGet (ps : BPairs) (k : List Nat) : Except PyErr BValue :=
  match getKeyP ps (.str k) with
  | some v => .ok v
  | none => .error .keyError

/-- `Torrent.multi_file` (src/pieces/torrent.py lines 81-87):
`b'files' in self.meta_info[b'info']`.  Mirrors the membership test; a
non-mapping `info` value makes the membership test raise in Python
(`TypeError` here). -/
def multi_file (meta : BPairs) : Except PyErr Bool :=
  match dictGet meta infoKey with
  | .error e => .error e
  | .ok (.dict info) => .ok (hasKeyP info (.str filesKey))
  | .ok _ => .error .typeError

/-- `b'/'.join(paths)` over the decoded `path` component list: every element
must be a byte string. -/
def joinPath : BList → Except PyErr (List Nat)
  | .nil => .ok []
  | .cons (.str p) .nil => .ok p
  | .cons (.str p) tl =>
      match joinPath tl with
      | .error e => .error e
      | .ok rest => .ok (p ++ 47 :: rest)
  | .cons _ _ => .error .typeError

/-- One iteration of the `for file in ...files` loop of
`Torrent._identify_files` (src/pieces/torrent.py lines 54-57): build
`os.path.join(name, b'/'.join(file[b'path']))` and pair it with
`file[b'length']` (stored untyped, exactly as the source does).  The UTF-8
text decoding of the source is kept at the byte level. -/
def filesOf (nm : List Nat) : BList → Except PyErr (List (List Nat × BValue))
  | .nil => .ok []
  | .cons f tl =>
      match f with
      | .dict fd =>
          match dictGet fd pathKey with
          | .error e => .error e
          | .ok (.list ps) =>
              match joinPath ps with
              | .error e => .error e
              | .ok curr =>
                  match dictGet fd lengthKey with
                  | .error e => .error e
                  | .ok len =>
                      match filesOf nm tl with
                      | .error e => .error e
                      | .ok rest => .ok ((nm ++ 47 :: curr, len) :: rest)
          | .ok _ => .error .typeError
      | _ => .error .typeError

/-- `Torrent._identify_files` (src/pieces/torrent.py lines 46-62): the list of
files this torrent describes.  In the multi-file branch the source creates
directories on disk and appends one `TorrentFile` per entry of
`info[b'files']`; in the single-file branch it appends
`(info[b'name'], info[b'length'])`.  There is no `Unsupported` (or any other)
rejection of multi-file metainfo anywhere in this function. -/
def identify_files (meta : BPairs) : Except PyErr (List (List Nat × BValue)) :=
  match dictGet meta infoKey with
  | .error e => .error e
  | .ok (.dict info) =>
      if hasKeyP info (.str filesKey) then
        match dictGet info nameKey with
        | .error e => .error e
        | .ok (.str nm) =>
            match dictGet info filesKey with
            | .error e => .error e
            | .ok (.list fs) => filesOf nm fs
            | .ok _ => .error .typeError
        | .ok _ => .error .attributeError
      else
        match dictGet info nameKey with
        | .error e => .error e
        | .ok (.str nm) =>
            match dictGet info lengthKey with
            | .error e => .error e
            | .ok len => .ok [(nm, len)]
        | .ok _ => .error .attributeError
  | .ok _ => .error .typeError

/-- A concrete decoded multi-file metainfo: `info` holds `name = b"n"` and two
`files` entries (`path [b"a"], length 3` and `path [b"b", b"c"], length 4`),
the shape `Torrent.__init__` receives for a multi-file torrent. -/
def multiMeta : BPairs :=
  .cons (.str infoKey)
    (.dict (.cons (.str nameKey) (.str [110])
      (.cons (.str filesKey)
        (.list (.cons
          (.dict (.cons (.str pathKey) (.list (.cons (.str [97]) .nil))
            (.cons (.str lengthKey) (.int 3) .nil)))
          (.cons
            (.dict (.cons (.str pathKey)
                (.list (.cons (.str [98]) (.cons (.str [99]) .nil)))
              (.cons (.str lengthKey) (.int 4) .nil)))
            .nil)))
        .nil)))
    .nil

end Torrent

namespace Protocol

/-- The wire messages of the peer protocol
(src/pieces/protocol.py classes `KeepAlive` .. `Cancel`). -/
inductive Msg where
  | keepAlive : Msg
  | choke : Msg
  | unchoke : Msg
  | interested : Msg
  | notInterested : Msg
  | have : Nat → Msg
  | bitField : List Nat → Msg
  | request : Nat → Nat → Nat → Msg
  | piece : Nat → Nat → List Nat → Msg
  | cancel : Nat → Nat → Nat → Msg
deriving DecidableEq, Repr

/-- `struct.unpack(">I", ...)` on a four-byte slice: big-endian value. -/
def be32 (bs : List Nat) : Nat := bs.foldl (fun a b => a * 256 + b) 0

/-- `struct.pack(">I", n)` for `n < 2^32`: big-endian bytes. -/
def be32b (n : Nat) : List Nat :=
  [n / 16777216 % 256, n / 65536 % 256, n / 256 % 256, n % 256]

/-- `Have.decode` (src/pieces/protocol.py lines 605-610):
`struct.unpack(">IbI", data)` needs exactly 9 bytes, else `struct.error`;
the index is bytes 5-8. -/
def haveDecode (data : List Nat) : Except PyErr Msg :=
  if data.length = 9 then .ok (.have (be32 (data.drop 5)))
  else .error .structError

/-- `BitField.decode` (src/pieces/protocol.py lines 518-525): re-reads the
length prefix from the frame and unpacks `">Ib" + str(L-1) + "s"`, which
needs `L ≥ 1` (a negative count is a bad format string) and exactly `L + 4`
bytes. -/
def bitFieldDecode (data : List Nat) : Except PyErr Msg :=
  if data.length < 4 then .error .structError
  else
    if 1 ≤ be32 (data.take 4) ∧ data.length = be32 (data.take 4) + 4 then
      .ok (.bitField (data.drop 5))
    else .error .structError

/-- `Request.decode` (src/pieces/protocol.py lines 647-653):
`struct.unpack(">IbIII", data)` needs exactly 17 bytes. -/
def requestDecode (data : List Nat) : Except PyErr Msg :=
  if data.length = 17 then
    .ok (.request (be32 ((data.drop 5).take 4)) (be32 ((data.drop 9).take 4))
      (be32 (data.drop 13)))
  else .error .structError

/-- `Cancel.decode` (src/pieces/protocol.py lines 729-735): same shape as
`Request.decode` with the cancel constructor. -/
def cancelDecode (data : List Nat) : Except PyErr Msg :=
  if data.length = 17 then
    .ok (.cancel (be32 ((data.drop 5).take 4)) (be32 ((data.drop 9).take 4))
      (be32 (data.drop 13)))
  else .error .structError

/-- `Piece.decode` (src/pieces/protocol.py lines 695-702): re-reads the length
prefix (needs 4 bytes), unpacks `">IbII" + str(L-9) + "s"` over `data[:L+4]`
(needs `L ≥ 9` and at least `L + 4` bytes); the block is bytes 13..`L+4`. -/
def pieceDecode (data : List Nat) : Except PyErr Msg :=
  if data.length < 4 then .error .structError
  else
    if 9 ≤ be32 (data.take 4) ∧ be32 (data.take 4) + 4 ≤ data.length then
      .ok (.piece (be32 ((data.drop 5).take 4)) (be32 ((data.drop 9).take 4))
        ((data.take (be32 (data.take 4) + 4)).drop 13))
    else .error .structError

/-- `PeerStreamIterator.parse` (src/pieces/protocol.py lines 297-368).  Returns
the parse outcome (a message, nothing, or a raised exception) together with the
buffer left behind.  Faithful quirks of the source: the gate is strictly
`len(buffer) > 4`; the completeness test is `len(buffer) >= message_length`
without the 4 header bytes; a KeepAlive is returned without consuming; an
unsupported id is logged and not consumed; for the ids that call `decode`, the
buffer is consumed before decoding, so a decode failure leaves the buffer
advanced.  The message id byte is signed in the source (`">b"`); bytes at or
above 128 read as negative values and hence match no id, exactly as raw-byte
comparison with 0..8 does here. -/
def parse (buffer : List Nat) : Except PyErr (Option Msg) × List Nat :=
  if 4 < buffer.length then
    if be32 (buffer.take 4) = 0 then (.ok (some .keepAlive), buffer)
    else if be32 (buffer.take 4) ≤ buffer.length then
      let mid := buffer.getD 4 0
      let dat := buffer.take (4 + be32 (buffer.take 4))
      let rest := buffer.drop (4 + be32 (buffer.take 4))
      if mid = 5 then ((bitFieldDecode dat).map some, rest)
      else if mid = 2 then (.ok (some .interested), rest)
      else if mid = 3 then (.ok (some .notInterested), rest)
      else if mid = 0 then (.ok (some .choke), rest)
      else if mid = 1 then (.ok (some .unchoke), rest)
      else if mid = 4 then ((haveDecode dat).map some, rest)
      else if mid = 7 then ((pieceDecode dat).map some, rest)
      else if mid = 6 then ((requestDecode dat).map some, rest)
      else if mid = 8 then ((cancelDecode dat).map some, rest)
      else (.ok none, buffer)
    else (.ok none, buffer)
  else (.ok none, buffer)

/-- The complete frame of a message, following the framed-stream layout
`<length:4 big-endian><id:1><payload>` (KeepAlive is the bare zero length
prefix), as produced by the `encode` implementations of the message classes
and documented in their `Message format` docstrings. -/
def frameOf : Msg → List Nat
  | .keepAlive => [0, 0, 0, 0]
  | .choke => [0, 0, 0, 1, 0]
  | .unchoke => [0, 0, 0, 1, 1]
  | .interested => [0, 0, 0, 1, 2]
  | .notInterested => [0, 0, 0, 1, 3]
  | .have i => [0, 0, 0, 5, 4] ++ be32b i
  | .bitField d => be32b (1 + d.length) ++ 5 :: d
  | .request i b l => [0, 0, 0, 13, 6] ++ be32b i ++ be32b b ++ be32b l
  | .piece i b blk => be32b (9 + blk.length) ++ 7 :: (be32b i ++ be32b b ++ blk)
  | .cancel i b l => [0, 0, 0, 13, 8] ++ be32b i ++ be32b b ++ be32b l

/-- Field ranges representable in a frame (each packed field is a 32-bit
big-endian integer; `struct.pack` raises beyond that). -/
def validMsg : Msg → Bool
  | .have i => i < 4294967296
  | .bitField d => 1 + d.length < 4294967296
  | .request i b l => i < 4294967296 && b < 4294967296 && l < 4294967296
  | .piece i b blk => i < 4294967296 && b < 4294967296 && 9 + blk.length < 4294967296
  | .cancel i b l => i < 4294967296 && b < 4294967296 && l < 4294967296
  | _ => true

end Protocol

namespace Client

/-- `REQUEST_SIZE` (src/pieces/protocol.py line 34): 2^14. -/
def REQUEST_SIZE : Nat := 16384

/-- Block status constants (src/pieces/client.py lines 145-147). -/
inductive BStatus where
  | missing : BStatus
  | pending : BStatus
  | retrieved : BStatus
deriving DecidableEq, Repr

/-- `Block` (src/pieces/client.py lines 137-154): `data` is Python `None`
until the block is retrieved. -/
structure Block where
  piece : Nat
  offset : Nat
  length : Nat
  status : BStatus
  data : Option (List Nat)
deriving DecidableEq, Repr

/-- `Piece` (src/pieces/client.py lines 157-234). -/
structure Piece where
  index : Nat
  blocks : List Block
  hash : List Nat
deriving DecidableEq, Repr

/-- `Piece.reset` (lines 172-177): every block back to `Missing` (payloads are
left in place; only the status field is assigned). -/
def pieceReset (p : Piece) : Piece :=
  ⟨p.index, p.blocks.map (fun b => ⟨b.piece, b.offset, b.length, .missing, b.data⟩), p.hash⟩

/-- `Piece.next_request` (lines 179-187): mark the first `Missing` block
`Pending` and return it (the source mutates that block in place; the updated
piece is returned alongside). -/
def pieceNextRequest (p : Piece) : Option Block × Piece :=
  match p.blocks.findIdx? (fun b => b.status == BStatus.missing) with
  | none => (none, p)
  | some i =>
      let b := p.blocks.getD i ⟨0, 0, 0, .missing, none⟩
      let b2 : Block := ⟨b.piece, b.offset, b.length, .pending, b.data⟩
      (some b2, ⟨p.index, p.blocks.set i b2, p.hash⟩)

/-- `Piece.block_received` (lines 189-203): mark the first block with this
offset `Retrieved` and store the payload; a missing offset only logs. -/
def pieceBlockReceived (p : Piece) (offset : Nat) (data : List Nat) : Piece :=
  match p.blocks.findIdx? (fun b => b.offset == offset) with
  | none => p
  | some i =>
      let b := p.blocks.getD i ⟨0, 0, 0, .missing, none⟩
      ⟨p.index, p.blocks.set i ⟨b.piece, b.offset, b.length, .retrieved, some data⟩, p.hash⟩

/-- `Piece.is_complete` (lines 205-212): no block in a status other than
`Retrieved` (the source compares with `is`, which for these small int
constants is equality). -/
def pieceIsComplete (p : Piece) : Bool :=
  p.blocks.all (fun b => b.status == BStatus.retrieved)

/-- `Piece.data` (lines 224-234): concatenation of the block payloads in
ascending offset order (`sorted` is stable, as is `mergeSort`).  The source
joins `b.data` directly and would raise on a `None` payload; callers only
invoke this on complete pieces, where every payload is set. -/
def pieceData (p : Piece) : List Nat :=
  ((p.blocks.mergeSort (fun a b => a.offset ≤ b.offset)).map
    (fun b => b.data.getD [])).flatten

/-- The slice of the torrent descriptor the `PieceManager` consumes
(`torrent.piece_length`, `torrent.total_size`, `torrent.pieces` of
src/pieces/torrent.py lines 89-123; `pieces` is the list of 20-byte digest
slices). -/
structure TorrentD where
  pieceLength : Nat
  totalSize : Nat
  pieces : List (List Nat)
deriving DecidableEq, Repr

/-- `math.ceil(a / b)` for nonnegative ints and positive `b` (the source
computes this through float division; exact for every realistic size). -/
def ceilDiv (a b : Nat) : Nat := (a + b - 1) / b

/-- The `[Block(index, offset * REQUEST_SIZE, REQUEST_SIZE) for offset in
range(count)]` comprehensions of `_initiate_pieces`. -/
def mkBlocks (index count : Nat) : List Block :=
  (List.range count).map (fun o => ⟨index, o * REQUEST_SIZE, REQUEST_SIZE, .missing, none⟩)

/-- Block list of one piece as built by `PieceManager._initiate_pieces`
(src/pieces/client.py lines 261-293).  For the last piece the source takes
`last_length = total_size % piece_length` — with no special case when the
division is even — builds `ceil(last_length / REQUEST_SIZE)` full-size blocks
and then shortens the final block when `last_length % REQUEST_SIZE > 0`.
(The source indexes `blocks[-1]`, which would raise on an empty list; that
branch is unreachable because the shortening condition forces at least one
block.)  A zero `piece_length` raises `ZeroDivisionError` in the source; the
claims all assume a positive piece length. -/
def initPieceBlocks (t : TorrentD) (index total : Nat) : List Block :=
  if index < total - 1 then mkBlocks index (ceilDiv t.pieceLength REQUEST_SIZE)
  else
    let lastLength := t.totalSize % t.pieceLength
    let blocks := mkBlocks index (ceilDiv lastLength REQUEST_SIZE)
    if lastLength % REQUEST_SIZE > 0 then
      match blocks.getLast? with
      | none => blocks
      | some lb =>
          blocks.dropLast ++ [⟨lb.piece, lb.offset, lastLength % REQUEST_SIZE, lb.status, lb.data⟩]
    else blocks

/-- `PieceManager._initiate_pieces` (src/pieces/client.py lines 261-293). -/
def initiate_pieces (t : TorrentD) : List Piece :=
  t.pieces.enum.map (fun pr => ⟨pr.1, initPieceBlocks t pr.1 t.pieces.length, pr.2⟩)

/-- `PieceManager` state (src/pieces/client.py lines 249-259).  Peers is the
insertion-ordered dict `peer_id -> bitfield`; a pending request is projected
to the only fields the source ever reads from it (`block.piece`,
`block.offset`, `added`); `writes` is the log of `_write` calls
(file position, bytes), standing for `os.lseek` + `os.write` on the output
file descriptor. -/
structure PMState where
  peers : List (Nat × List Bool)
  pending_blocks : List (Nat × Nat × Nat)
  missing_pieces : List Piece
  ongoing_pieces : List Piece
  have_pieces : List Piece
  writes : List (Nat × List Nat)
deriving DecidableEq, Repr

/-- Initial manager state: every piece missing, nothing else
(`PieceManager.__init__`, lines 249-259). -/
def initState (t : TorrentD) : PMState :=
  ⟨[], [], initiate_pieces t, [], [], []⟩

/-- Dict lookup on the insertion-ordered peers map. -/
def peersGet : List (Nat × List Bool) → Nat → Option (List Bool)
  | [], _ => none
  | (q, bf) :: tl, pid => if q = pid then some bf else peersGet tl pid

/-- Dict store on the insertion-ordered peers map: replace in place or
append. -/
def peersSet : List (Nat × List Bool) → Nat → List Bool → List (Nat × List Bool)
  | [], pid, bf => [(pid, bf)]
  | (q, bf0) :: tl, pid, bf =>
      if q = pid then (q, bf) :: tl else (q, bf0) :: peersSet tl pid bf

/-- Dict delete on the peers map. -/
def peersDel : List (Nat × List Bool) → Nat → List (Nat × List Bool)
  | [], _ => []
  | (q, bf) :: tl, pid => if q = pid then tl else (q, bf) :: peersDel tl pid

/-- Bitfield read `bf[i]`.  The source's `bitstring.BitArray` raises
`IndexError` out of range; reads past the end return `false` here (the claims
only exercise in-range reads, where the two agree). -/
def bfGet (bf : List Bool) (i : Nat) : Bool := bf.getD i false

/-- `PieceManager.add_peer` (lines 325-329). -/
def add_peer (s : PMState) (pid : Nat) (bf : List Bool) : PMState :=
  { s with peers := peersSet s.peers pid bf }

/-- `PieceManager.update_peer` (lines 331-337): set bit `index` for a known
peer.  (`List.set` ignores an out-of-range index where the source's bit
assignment would raise; in-range they agree.) -/
def update_peer (s : PMState) (pid : Nat) (index : Nat) : PMState :=
  match peersGet s.peers pid with
  | none => s
  | some bf => { s with peers := peersSet s.peers pid (bf.set index true) }

/-- `PieceManager.remove_peer` (lines 339-345). -/
def remove_peer (s : PMState) (pid : Nat) : PMState :=
  { s with peers := peersDel s.peers pid }

/-- `PieceManager._expired_requests` (lines 421-440): scan the pending records
in order for one on a piece this peer advertises whose timestamp is older than
`max_pending_time`.  On a hit the source executes `request.added = current` —
but `PendingRequest` is a `namedtuple`, so the assignment raises
`AttributeError`; this path can never return a block. -/
def expiredScan (bf : List Bool) (now : Nat) : List (Nat × Nat × Nat) → Except PyErr Unit
  | [] => .ok ()
  | (pc, _, added) :: tl =>
      if bfGet bf pc then
        if added + 300000 < now then .error .attributeError
        else expiredScan bf now tl
      else expiredScan bf now tl

/-- The `for piece in self.ongoing_pieces` loop of
`PieceManager._next_ongoing` (lines 442-455): first advertised ongoing piece
with a `Missing` block, mutated in place. -/
def nextOngoingGo (bf : List Bool) : List Piece → Option (Block × List Piece)
  | [] => none
  | p :: tl =>
      if bfGet bf p.index then
        match pieceNextRequest p with
        | (some b, p2) => some (b, p2 :: tl)
        | (none, _) =>
            match nextOngoingGo bf tl with
            | none => none
            | some (b, tl2) => some (b, p :: tl2)
      else
        match nextOngoingGo bf tl with
        | none => none
        | some (b, tl2) => some (b, p :: tl2)

/-- Number of registered peers advertising piece index `i`
(the `piece_count[piece] += 1` loop of `_get_rarest_piece`). -/
def countOwners (peers : List (Nat × List Bool)) (i : Nat) : Nat :=
  (peers.filter (fun q => bfGet q.2 i)).length

/-- `min(piece_count, key=lambda p: piece_count[p])` over the candidate
(position, piece) pairs in insertion order: Python's `min` keeps the first of
equally small keys, i.e. replaces only on strictly smaller counts. -/
def rarestFold (peers : List (Nat × List Bool)) (c0 : Nat × Piece)
    (rest : List (Nat × Piece)) : Nat × Piece :=
  rest.foldl (fun acc pr =>
    if countOwners peers pr.2.index < countOwners peers acc.2.index then pr else acc) c0

/-- `PieceManager._get_rarest_piece` (lines 457-474): candidates are the
missing pieces the requesting peer advertises, keyed in insertion order (the
dict keys are distinct piece objects, modelled by their list positions); an
empty candidate dict makes `min` raise `ValueError`.  Returns the chosen
position and piece; the caller moves it. -/
def get_rarest_piece (s : PMState) (bf : List Bool) : Except PyErr (Nat × Piece) :=
  match s.missing_pieces.enum.filter (fun pr => bfGet bf pr.2.index) with
  | [] => .error .valueError
  | c0 :: rest => .ok (rarestFold s.peers c0 rest)

/-- `PieceManager.next_request` (src/pieces/client.py lines 347-373), with the
wall-clock milliseconds as an explicit argument.  An unknown peer returns
`None`.  Then, in source order: the expired scan (which raises on a hit, see
`expiredScan`), the ongoing scan (which appends a pending record), and
finally `self._get_rarest_piece(peer_id).next_request()` — which moves the
rarest candidate from missing to ongoing, marks its first missing block
pending, and returns it without adding any pending record; when no candidate
exists the `min` call raises `ValueError` and the state is left unchanged. -/
def next_request (s : PMState) (pid : Nat) (now : Nat) :
    Except PyErr (Option Block) × PMState :=
  match peersGet s.peers pid with
  | none => (.ok none, s)
  | some bf =>
      match expiredScan bf now s.pending_blocks with
      | .error e => (.error e, s)
      | .ok _ =>
          match nextOngoingGo bf s.ongoing_pieces with
          | some (b, ong2) =>
              (.ok (some b),
                { s with ongoing_pieces := ong2,
                         pending_blocks := s.pending_blocks ++ [(b.piece, b.offset, now)] })
          | none =>
              match get_rarest_piece s bf with
              | .error e => (.error e, s)
              | .ok (pos, p) =>
                  match pieceNextRequest p with
                  | (ob, p2) =>
                      (.ok ob,
                        { s with missing_pieces := s.missing_pieces.eraseIdx pos,
                                 ongoing_pieces := s.ongoing_pieces ++ [p2] })

/-- Remove the first pending record matching (piece, offset) — the
`for ... del ... break` loop of `block_received` (lines 390-395). -/
def removeFirstPending : List (Nat × Nat × Nat) → Nat → Nat → List (Nat × Nat × Nat)
  | [], _, _ => []
  | (pc, off, ad) :: tl, pi, bo =>
      if pc = pi ∧ off = bo then tl
      else (pc, off, ad) :: removeFirstPending tl pi bo

/-- `PieceManager.block_received` (src/pieces/client.py lines 375-419),
parameterized by the digest function `H` (`sha1(·).digest()`).  Remove the
pending record; find the first ongoing piece with this index; record the
block; when the piece is complete, a digest match writes the piece at
`index * piece_length` and moves it from ongoing to have, a mismatch resets
every block to `Missing` and keeps the piece in ongoing. -/
def block_received (H : List Nat → List Nat) (t : TorrentD) (s : PMState)
    (piece_index block_offset : Nat) (data : List Nat) : PMState :=
  let s1 := { s with pending_blocks :=
    removeFirstPending s.pending_blocks piece_index block_offset }
  match s1.ongoing_pieces.findIdx? (fun p => p.index == piece_index) with
  | none => s1
  | some i =>
      let p := s1.ongoing_pieces.getD i ⟨0, [], []⟩
      let p2 := pieceBlockReceived p block_offset data
      if pieceIsComplete p2 then
        if p2.hash = H (pieceData p2) then
          { s1 with ongoing_pieces := s1.ongoing_pieces.eraseIdx i,
                    have_pieces := s1.have_pieces ++ [p2],
                    writes := s1.writes ++ [(p2.index * t.pieceLength, pieceData p2)] }
        else
          { s1 with ongoing_pieces := s1.ongoing_pieces.set i (pieceReset p2) }
      else { s1 with ongoing_pieces := s1.ongoing_pieces.set i p2 }

/-- `PieceManager.complete` (lines 302-309). -/
def complete (t : TorrentD) (s : PMState) : Bool :=
  s.have_pieces.length == t.pieces.length

/-- `PieceManager.bytes_downloaded` (lines 311-318): verified pieces times the
nominal piece length — the tail piece counts at full `piece_length`. -/
def bytes_downloaded (t : TorrentD) (s : PMState) : Nat :=
  s.have_pieces.length * t.pieceLength

/-- One piece-manager operation, as invoked by the peer workers
(src/pieces/protocol.py lines 118-158 deliver these calls). -/
inductive Op where
  | addPeer : Nat → List Bool → Op
  | updatePeer : Nat → Nat → Op
  | removePeer : Nat → Op
  | nextReq : Nat → Nat → Op
  | blockRecv : Nat → Nat → List Nat → Op
deriving DecidableEq, Repr

/-- Apply one operation to the manager state (return values discarded). -/
def applyOp (H : List Nat → List Nat) (t : TorrentD) (s : PMState) : Op → PMState
  | .addPeer pid bf => add_peer s pid bf
  | .updatePeer pid idx => update_peer s pid idx
  | .removePeer pid => remove_peer s pid
  | .nextReq pid now => (next_request s pid now).2
  | .blockRecv pi off data => block_received H t s pi off data

/-- Apply a sequence of operations from the initial state. -/
def applyOps (H : List Nat → List Nat) (t : TorrentD) (s : PMState)
    (ops : List Op) : PMState :=
  ops.foldl (applyOp H t) s

/-- Piece indices across the three partition lists, in order. -/
def idxList (s : PMState) : List Nat :=
  (s.missing_pieces ++ s.ongoing_pieces ++ s.have_pieces).map Piece.index

/-- The ongoing piece at position `i` updated with a received block — the
`piece.block_received(block_offset, data)` step of `block_received`. -/
def recvPiece (s : PMState) (i off : Nat) (data : List Nat) : Piece :=
  pieceBlockReceived (s.ongoing_pieces.getD i ⟨0, [], []⟩) off data

end Client

namespace Tracker

/-- The query parameters `Tracker.connect` builds (src/pieces/tracker.py
lines 135-144): `info_hash` and `peer_id` are taken from the torrent and the
generated id; the numeric parameters and the conditional
`params['event'] = 'started'` are modelled here.  `left` is
`total_size - downloaded`, a plain Python int that can go negative. -/
structure AnnounceParams where
  port : Nat
  uploaded : Nat
  downloaded : Nat
  left : Int
  compact : Nat
  eventStarted : Bool
deriving DecidableEq, Repr

/-- `Tracker.connect` parameter construction (src/pieces/tracker.py
lines 135-144): `event=started` is added exactly when `first` is truthy. -/
def connectParams (totalSize : Nat) (first : Bool) (uploaded downloaded : Nat) :
    AnnounceParams :=
  ⟨6889, uploaded, downloaded, (totalSize : Int) - (downloaded : Int), 1, first⟩

/-- The `first` argument the session loop passes
(src/pieces/client.py line 94): `previous if previous else False`, where
`previous` is `None` before any successful announce and the (positive)
timestamp of the last one afterwards; Python truthiness makes `None` and a
zero timestamp falsy. -/
def firstArg (previous : Option Nat) : Bool :=
  match previous with
  | none => false
  | some tprev => tprev ≠ 0

end Tracker

namespace Bencoding

theorem natToDigitsF_irrel (n : Nat) : ∀ f g, n < f → n < g →
    natToDigitsF f n = natToDigitsF g n := by
  induction n using Nat.strong_induction_on with
  | _ n ih =>
    intro f g hf hg
    obtain ⟨f1, rfl⟩ : ∃ f1, f = f1 + 1 := ⟨f - 1, by omega⟩
    obtain ⟨g1, rfl⟩ : ∃ g1, g = g1 + 1 := ⟨g - 1, by omega⟩
    rw [natToDigitsF, natToDigitsF]
    split
    · rfl
    · next hn =>
      rw [ih (n / 10) (Nat.div_lt_self (by omega) (by omega)) f1 g1 (by omega) (by omega)]

theorem natToDigits_unfold (n : Nat) :
    natToDigits n = if n < 10 then [48 + n] else natToDigits (n / 10) ++ [48 + n % 10] := by
  rw [natToDigits, natToDigitsF]
  split
  · rfl
  · next hn =>
    rw [natToDigits, natToDigitsF_irrel (n / 10) n (n / 10 + 1) (by omega) (by omega)]

theorem natToDigits_all (n : Nat) : ∀ d ∈ natToDigits n, 48 ≤ d ∧ d ≤ 57 := by
  induction n using Nat.strong_induction_on with
  | _ n ih =>
    rw [natToDigits_unfold]
    split
    · intro d hd
      simp only [List.mem_singleton] at hd
      omega
    · intro d hd
      rw [List.mem_append] at hd
      rcases hd with hd | hd
      · exact ih (n / 10) (Nat.div_lt_self (by omega) (by omega)) d hd
      · simp only [List.mem_singleton] at hd
        have := Nat.mod_lt n (show 0 < 10 by omega)
        omega

theorem natToDigits_ne_nil (n : Nat) : natToDigits n ≠ [] := by
  rw [natToDigits_unfold]
  split
  · simp
  · simp

theorem digitsValAux_append (xs : List Nat) (d : Nat) (acc : Nat)
    (hd : 48 ≤ d ∧ d ≤ 57) :
    digitsValAux (xs ++ [d]) acc
      = (digitsValAux xs acc).map (fun m => m * 10 + (d - 48)) := by
  induction xs generalizing acc with
  | nil => simp [digitsValAux, hd]
  | cons x xs ih =>
    by_cases hx : 48 ≤ x ∧ x ≤ 57
    · simp only [List.cons_append, digitsValAux, if_pos hx]
      exact ih _
    · simp [digitsValAux, hx]

theorem digitsValAux_natToDigits (n : Nat) : digitsValAux (natToDigits n) 0 = some n := by
  induction n using Nat.strong_induction_on with
  | _ n ih =>
    rw [natToDigits_unfold]
    split
    · simp only [digitsValAux]
      rw [if_pos (by omega)]
      simp only [digitsValAux, Option.some.injEq]
      omega
    · rw [digitsValAux_append _ _ _ ⟨by omega, by
        have := Nat.mod_lt n (show 0 < 10 by omega); omega⟩]
      rw [ih (n / 10) (Nat.div_lt_self (by omega) (by omega))]
      simp only [Option.map_some', Option.some.injEq]
      omega

theorem pyInt_natToDigits (n : Nat) : pyInt (natToDigits n) = .ok (n : Int) := by
  obtain ⟨c, cs, hcons⟩ : ∃ c cs, natToDigits n = c :: cs := by
    cases h : natToDigits n with
    | nil => exact absurd h (natToDigits_ne_nil n)
    | cons c cs => exact ⟨c, cs, rfl⟩
  have hc : 48 ≤ c ∧ c ≤ 57 := natToDigits_all n c (by rw [hcons]; simp)
  rw [hcons]
  simp only [pyInt]
  rw [if_neg (by omega)]
  rw [← hcons, digitsValAux_natToDigits]

theorem pyInt_intRepr (n : Int) : pyInt (intRepr n) = .ok n := by
  rw [intRepr]
  split
  · next hneg =>
    simp only [pyInt]
    rw [if_pos trivial, if_neg (natToDigits_ne_nil _), digitsValAux_natToDigits]
    simp only [Except.ok.injEq]
    omega
  · next hpos =>
    rw [pyInt_natToDigits]
    simp only [Except.ok.injEq]
    omega

theorem intRepr_all (n : Int) : ∀ d ∈ intRepr n, (48 ≤ d ∧ d ≤ 57) ∨ d = 45 := by
  rw [intRepr]
  split
  · intro d hd
    rcases List.mem_cons.mp hd with h | h
    · right; exact h
    · left; exact natToDigits_all _ d h
  · intro d hd
    left; exact natToDigits_all _ d hd

theorem bIndex_append (seg rest : List Nat) (tok : Nat)
    (h : ∀ x ∈ seg, x ≠ tok) :
    bIndex (seg ++ tok :: rest) tok = some seg.length := by
  induction seg with
  | nil => simp [bIndex]
  | cons x xs ih =>
    have hx : x ≠ tok := h x (by simp)
    simp only [List.cons_append, bIndex, if_neg hx, List.append_eq]
    rw [ih (fun y hy => h y (by simp [hy]))]
    rfl

theorem read_until_spec (pre seg rest : List Nat) (tok : Nat)
    (h : ∀ x ∈ seg, x ≠ tok) :
    read_until (pre ++ seg ++ tok :: rest) pre.length tok
      = .ok (seg, pre.length + seg.length + 1) := by
  rw [read_until]
  rw [List.append_assoc, List.drop_left]
  rw [bIndex_append seg rest tok h]
  show Except.ok (List.take seg.length (seg ++ tok :: rest), pre.length + seg.length + 1)
      = Except.ok (seg, pre.length + seg.length + 1)
  rw [List.take_left]

theorem peekB_spec (pre rest : List Nat) (c : Nat) (h : rest ≠ []) :
    peekB (pre ++ c :: rest) pre.length = some c := by
  rw [peekB]
  rw [if_neg (by
    simp only [List.length_append, List.length_cons, ge_iff_le, not_le]
    have : 0 < rest.length := List.length_pos.mpr h
    omega)]
  rw [List.get?_append_right (Nat.le_refl _)]
  simp

theorem readB_spec (pre s rest : List Nat) :
    readB (pre ++ s ++ rest) pre.length s.length = .ok (s, pre.length + s.length) := by
  rw [readB]
  rw [if_neg (by simp only [List.length_append, gt_iff_lt, not_lt]; omega)]
  rw [List.append_assoc, List.drop_left, List.take_left]

theorem getQ_at (pre rest : List Nat) (c : Nat) :
    (pre ++ c :: rest).get? pre.length = some c := by
  rw [List.get?_append_right (Nat.le_refl _)]
  simp

theorem encode_head (v : BValue) (b : List Nat) (h : encode_next v = some b) :
    ∃ c cs, b = c :: cs ∧ (c = 105 ∨ c = 108 ∨ c = 100 ∨ (48 ≤ c ∧ c ≤ 57)) := by
  cases v with
  | pynone => simp [encode_next] at h
  | int n =>
    rw [encode_next] at h
    simp only [Option.some.injEq] at h
    exact ⟨105, intRepr n ++ [101], h.symm, Or.inl rfl⟩
  | str s =>
    rw [encode_next] at h
    cases hd : natToDigits s.length with
    | nil => exact absurd hd (natToDigits_ne_nil _)
    | cons c cs =>
      have hc : 48 ≤ c ∧ c ≤ 57 := natToDigits_all _ c (by rw [hd]; simp)
      refine ⟨c, cs ++ 58 :: s, ?_, Or.inr (Or.inr (Or.inr hc))⟩
      simp only [Option.some.injEq] at h
      rw [← h, hd]
      simp
  | list xs =>
    rw [encode_next] at h
    cases he : encode_list xs with
    | none => rw [he] at h; simp at h
    | some bs =>
      rw [he] at h
      simp only [Option.some.injEq] at h
      exact ⟨108, bs ++ [101], h.symm, Or.inr (Or.inl rfl)⟩
  | dict ps =>
    rw [encode_next] at h
    cases he : encode_dict ps with
    | none => rw [he] at h; simp at h
    | some bs =>
      rw [he] at h
      simp only [Option.some.injEq] at h
      exact ⟨100, bs ++ [101], h.symm, Or.inr (Or.inr (Or.inl rfl))⟩

end Bencoding


namespace Bencoding

theorem peekB_at (data : List Nat) (i c : Nat) (pre rest : List Nat)
    (hdata : data = pre ++ c :: rest) (hi : i = pre.length) (hne : rest ≠ []) :
    peekB data i = some c := by
  subst hdata; subst hi; exact peekB_spec pre rest c hne

theorem read_until_at (data : List Nat) (i tok : Nat) (pre seg rest : List Nat)
    (hdata : data = pre ++ seg ++ tok :: rest) (hi : i = pre.length)
    (hfree : ∀ x ∈ seg, x ≠ tok) :
    read_until data i tok = .ok (seg, i + seg.length + 1) := by
  subst hdata; subst hi; exact read_until_spec pre seg rest tok hfree

theorem readB_at (data : List Nat) (i n : Nat) (pre s rest : List Nat)
    (hdata : data = pre ++ s ++ rest) (hi : i = pre.length) (hn : n = s.length) :
    readB data i n = .ok (s, i + n) := by
  subst hdata; subst hi; subst hn; exact readB_spec pre s rest

theorem get_at (data : List Nat) (i c : Nat) (pre rest : List Nat)
    (hdata : data = pre ++ c :: rest) (hi : i = pre.length) :
    data.get? i = some c := by
  subst hdata; subst hi; exact getQ_at pre rest c

theorem appendP_nil_right (p : BPairs) : appendP p .nil = p := by
  cases p with
  | nil => rfl
  | cons k v tl => rw [appendP, appendP_nil_right tl]

theorem hasKeyP_insertPair (acc : BPairs) (k v k0 : BValue) :
    hasKeyP (insertPair acc k v) k0 = (hasKeyP acc k0 || decide (k = k0)) := by
  cases acc with
  | nil => simp [insertPair, hasKeyP]
  | cons k1 v1 tl =>
    rw [insertPair]
    by_cases h : k1 = k
    · rw [if_pos h]
      subst h
      simp only [hasKeyP]
      by_cases h0 : k1 = k0 <;> simp [h0]
    · rw [if_neg h]
      simp only [hasKeyP, hasKeyP_insertPair tl k v k0]
      by_cases h0 : k1 = k0 <;> simp [h0, Bool.or_assoc]

theorem insertPair_append (acc : BPairs) (k v : BValue) (tl : BPairs)
    (h : hasKeyP acc k = false) :
    appendP (insertPair acc k v) tl = appendP acc (.cons k v tl) := by
  cases acc with
  | nil => rfl
  | cons k1 v1 a =>
    rw [hasKeyP] at h
    simp only [Bool.or_eq_false_iff, decide_eq_false_iff_not] at h
    rw [insertPair, if_neg h.1]
    rw [appendP, insertPair_append a k v tl h.2]
    rfl

mutual
theorem dec_enc_V (v : BValue) : ∀ (fuel : Nat) (pre post b : List Nat),
    canonicalV v = true → encode_next v = some b → fuelV v ≤ fuel →
    decodeD fuel (pre ++ b ++ post) pre.length = .ok (v, pre.length + b.length) := by
  cases v with
  | pynone =>
    intro fuel pre post b hc he hf
    simp [canonicalV] at hc
  | int n =>
    intro fuel pre post b hc he hf
    rw [encode_next] at he
    simp only [Option.some.injEq] at he
    subst he
    rw [fuelV] at hf
    obtain ⟨f, rfl⟩ : ∃ f, fuel = f + 1 := ⟨fuel - 1, by omega⟩
    simp only [List.append_assoc, List.cons_append, List.nil_append]
    have hpeek : peekB (pre ++ 105 :: (intRepr n ++ 101 :: post)) pre.length = some 105 :=
      peekB_at _ _ _ pre (intRepr n ++ 101 :: post) (by simp) rfl (by simp)
    have hru : read_until (pre ++ 105 :: (intRepr n ++ 101 :: post)) (pre.length + 1) 101
        = .ok (intRepr n, pre.length + 1 + (intRepr n).length + 1) :=
      read_until_at _ _ _ (pre ++ [105]) (intRepr n) post (by simp) (by simp)
        (fun x hx => by rcases intRepr_all n x hx with h | h <;> omega)
    simp only [decodeD, hpeek, reduceIte, Nat.reduceEqDiff, decode_int, hru, pyInt_intRepr]
    simp only [Except.ok.injEq, Prod.mk.injEq, List.length_cons, List.length_append,
      List.length_nil]
    first
    | omega
    | exact ⟨by trivial, by omega⟩
  | str s =>
    intro fuel pre post b hc he hf
    rw [encode_next] at he
    simp only [Option.some.injEq] at he
    subst he
    rw [fuelV] at hf
    obtain ⟨f, rfl⟩ : ∃ f, fuel = f + 1 := ⟨fuel - 1, by omega⟩
    obtain ⟨c, cs, hcons⟩ : ∃ c cs, natToDigits s.length = c :: cs := by
      cases h : natToDigits s.length with
      | nil => exact absurd h (natToDigits_ne_nil _)
      | cons c cs => exact ⟨c, cs, rfl⟩
    have hdig : ∀ x ∈ c :: cs, 48 ≤ x ∧ x ≤ 57 := by
      rw [← hcons]; exact natToDigits_all _
    have hc57 : 48 ≤ c ∧ c ≤ 57 := hdig c (by simp)
    rw [hcons]
    simp only [List.append_assoc, List.cons_append, List.nil_append]
    have hpeek : peekB (pre ++ c :: (cs ++ 58 :: (s ++ post))) pre.length = some c :=
      peekB_at _ _ _ pre (cs ++ 58 :: (s ++ post)) (by simp) rfl (by simp)
    have hru : read_until (pre ++ c :: (cs ++ 58 :: (s ++ post))) pre.length 58
        = .ok (c :: cs, pre.length + (c :: cs).length + 1) :=
      read_until_at _ _ _ pre (c :: cs) (s ++ post) (by simp) rfl
        (fun x hx => by have := hdig x hx; omega)
    have hpy : pyInt (c :: cs) = .ok (s.length : Int) := by
      rw [← hcons]; exact pyInt_natToDigits _
    have hrd : readB (pre ++ c :: (cs ++ 58 :: (s ++ post)))
        (pre.length + (c :: cs).length + 1) s.length
        = .ok (s, pre.length + (c :: cs).length + 1 + s.length) :=
      readB_at _ _ _ (pre ++ c :: (cs ++ [58])) s post (by simp)
        (by simp only [List.length_append, List.length_cons, List.length_nil]; omega) rfl
    have hmem : pyDigits.contains c = true := by
      simp only [pyDigits, List.contains_eq_any_beq, List.any_cons, List.any_nil,
        Bool.or_eq_true, beq_iff_eq]
      omega
    simp only [decodeD, hpeek]
    rw [if_neg (by omega), if_neg (by omega), if_neg (by omega), if_neg (by omega),
      if_pos hmem]
    simp only [decode_string, hru, hpy, Int.toNat_ofNat, hrd]
    simp only [Except.ok.injEq, Prod.mk.injEq, List.length_cons, List.length_append,
      List.length_nil]
    first
    | omega
    | exact ⟨by trivial, by omega⟩
  | list xs =>
    intro fuel pre post b hc he hf
    rw [encode_next] at he
    cases hel : encode_list xs with
    | none => rw [hel] at he; simp at he
    | some bs =>
      rw [hel] at he
      simp only [Option.some.injEq] at he
      subst he
      rw [canonicalV] at hc
      rw [fuelV] at hf
      obtain ⟨f, rfl⟩ : ∃ f, fuel = f + 1 := ⟨fuel - 1, by omega⟩
      simp only [List.append_assoc, List.cons_append, List.nil_append]
      have hpeek : peekB (pre ++ 108 :: (bs ++ 101 :: post)) pre.length = some 108 :=
        peekB_at _ _ _ pre (bs ++ 101 :: post) (by simp) rfl (by simp)
      have hrec := dec_enc_L xs f (pre ++ [108]) post bs hc hel (by omega)
      simp only [List.append_assoc, List.cons_append, List.nil_append,
        List.length_append, List.length_cons, List.length_nil] at hrec
      simp only [decodeD, hpeek, reduceIte, Nat.reduceEqDiff, hrec]
      simp only [Except.ok.injEq, Prod.mk.injEq, List.length_cons, List.length_append,
        List.length_nil]
      first
    | omega
    | exact ⟨by trivial, by omega⟩
  | dict ps =>
    intro fuel pre post b hc he hf
    rw [encode_next] at he
    cases hel : encode_dict ps with
    | none => rw [hel] at he; simp at he
    | some bs =>
      rw [hel] at he
      simp only [Option.some.injEq] at he
      subst he
      rw [canonicalV] at hc
      rw [fuelV] at hf
      obtain ⟨f, rfl⟩ : ∃ f, fuel = f + 1 := ⟨fuel - 1, by omega⟩
      simp only [List.append_assoc, List.cons_append, List.nil_append]
      have hpeek : peekB (pre ++ 100 :: (bs ++ 101 :: post)) pre.length = some 100 :=
        peekB_at _ _ _ pre (bs ++ 101 :: post) (by simp) rfl (by simp)
      have hrec := dec_enc_P ps f (pre ++ [100]) post bs .nil hc hel (by omega)
        (fun k _ => by rw [hasKeyP])
      rw [show appendP .nil ps = ps from rfl] at hrec
      simp only [List.append_assoc, List.cons_append, List.nil_append,
        List.length_append, List.length_cons, List.length_nil] at hrec
      simp only [decodeD, hpeek, reduceIte, Nat.reduceEqDiff, hrec]
      simp only [Except.ok.injEq, Prod.mk.injEq, List.length_cons, List.length_append,
        List.length_nil]
      first
    | omega
    | exact ⟨by trivial, by omega⟩

theorem dec_enc_L (xs : BList) : ∀ (fuel : Nat) (pre post bs : List Nat),
    canonicalL xs = true → encode_list xs = some bs → fuelL xs ≤ fuel →
    decodeListD fuel (pre ++ bs ++ 101 :: post) pre.length
      = .ok (xs, pre.length + (bs.length + 1)) := by
  cases xs with
  | nil =>
    intro fuel pre post bs hc he hf
    rw [encode_list] at he
    simp only [Option.some.injEq] at he
    subst he
    rw [fuelL] at hf
    obtain ⟨f, rfl⟩ : ∃ f, fuel = f + 1 := ⟨fuel - 1, by omega⟩
    have hget : (pre ++ [] ++ 101 :: post).get? pre.length = some 101 :=
      get_at _ _ _ pre post (by simp) rfl
    simp only [decodeListD, hget, reduceIte]
    simp
  | cons v tl =>
    intro fuel pre post bs hc he hf
    rw [encode_list] at he
    cases hev : encode_next v with
    | none => rw [hev] at he; simp at he
    | some bv =>
      cases het : encode_list tl with
      | none => rw [hev, het] at he; simp at he
      | some bt =>
        rw [hev, het] at he
        simp only [Option.some.injEq] at he
        subst he
        rw [canonicalL, Bool.and_eq_true] at hc
        rw [fuelL] at hf
        obtain ⟨f, rfl⟩ : ∃ f, fuel = f + 1 := ⟨fuel - 1, by omega⟩
        obtain ⟨c, cs, rfl, hcr⟩ := encode_head v bv hev
        have hc101 : c ≠ 101 := by rcases hcr with h | h | h | h <;> omega
        simp only [List.append_assoc, List.cons_append, List.nil_append]
        have hget : (pre ++ c :: (cs ++ (bt ++ 101 :: post))).get? pre.length = some c :=
          get_at _ _ _ pre (cs ++ (bt ++ 101 :: post)) (by simp) rfl
        have h1 := dec_enc_V v f pre (bt ++ 101 :: post) (c :: cs) hc.1 hev (by omega)
        simp only [List.append_assoc, List.cons_append, List.nil_append,
          List.length_append, List.length_cons, List.length_nil] at h1
        have h2 := dec_enc_L tl f (pre ++ c :: cs) post bt hc.2 het (by omega)
        simp only [List.append_assoc, List.cons_append, List.nil_append,
          List.length_append, List.length_cons, List.length_nil] at h2
        simp only [decodeListD, hget, Option.some.injEq]
        rw [if_neg hc101]
        simp only [h1, h2]
        simp only [Except.ok.injEq, Prod.mk.injEq, List.length_cons, List.length_append,
          List.length_nil]
        first
    | omega
    | exact ⟨by trivial, by omega⟩

theorem dec_enc_P (ps : BPairs) : ∀ (fuel : Nat) (pre post bs : List Nat) (acc : BPairs),
    canonicalP ps = true → encode_dict ps = some bs → fuelP ps ≤ fuel →
    (∀ k, hasKeyP ps k = true → hasKeyP acc k = false) →
    decodeDictD fuel (pre ++ bs ++ 101 :: post) pre.length acc
      = .ok (appendP acc ps, pre.length + (bs.length + 1)) := by
  cases ps with
  | nil =>
    intro fuel pre post bs acc hc he hf hdisj
    rw [encode_dict] at he
    simp only [Option.some.injEq] at he
    subst he
    rw [fuelP] at hf
    obtain ⟨f, rfl⟩ : ∃ f, fuel = f + 1 := ⟨fuel - 1, by omega⟩
    have hget : (pre ++ [] ++ 101 :: post).get? pre.length = some 101 :=
      get_at _ _ _ pre post (by simp) rfl
    simp only [decodeDictD, hget, reduceIte]
    rw [appendP_nil_right]
    simp
  | cons k v tl =>
    intro fuel pre post bs acc hc he hf hdisj
    rw [encode_dict] at he
    cases hek : encode_next k with
    | none => rw [hek] at he; simp at he
    | some kb =>
      cases hev : encode_next v with
      | none => rw [hek, hev] at he; simp at he
      | some vb =>
        cases het : encode_dict tl with
        | none =>
          rw [hek, hev, het] at he
          simp at he
        | some bt =>
          obtain ⟨c, cs, rfl, hcr⟩ := encode_head k kb hek
          obtain ⟨cv, csv, rfl, hcrv⟩ := encode_head v vb hev
          rw [hek, hev, het] at he
          simp only [List.cons_ne_nil, ne_eq, not_false_eq_true, and_self, if_true,
            Option.some.injEq] at he
          subst he
          rw [canonicalP] at hc
          simp only [Bool.and_eq_true, Bool.not_eq_true'] at hc
          obtain ⟨⟨⟨hkstr, hcv⟩, hknot⟩, hct⟩ := hc
          rw [fuelP] at hf
          obtain ⟨f, rfl⟩ : ∃ f, fuel = f + 1 := ⟨fuel - 1, by omega⟩
          have hc101 : c ≠ 101 := by rcases hcr with h | h | h | h <;> omega
          have hck : canonicalV k = true := by
            cases k <;> simp_all [canonicalV, isStrB]
          simp only [List.append_assoc, List.cons_append, List.nil_append]
          have hget : (pre ++ c :: (cs ++ cv :: (csv ++ (bt ++ 101 :: post)))).get? pre.length
              = some c :=
            get_at _ _ _ pre (cs ++ cv :: (csv ++ (bt ++ 101 :: post))) (by simp) rfl
          have h1 := dec_enc_V k f pre ((cv :: csv) ++ (bt ++ 101 :: post)) (c :: cs) hck hek
            (by omega)
          simp only [List.append_assoc, List.cons_append, List.nil_append,
            List.length_append, List.length_cons, List.length_nil] at h1
          have h2 := dec_enc_V v f (pre ++ c :: cs) (bt ++ 101 :: post) (cv :: csv) hcv hev
            (by omega)
          simp only [List.append_assoc, List.cons_append, List.nil_append,
            List.length_append, List.length_cons, List.length_nil] at h2
          have h3 := dec_enc_P tl f (pre ++ c :: cs ++ cv :: csv) post bt
            (insertPair acc k v) hct het (by omega)
            (fun k0 hk0 => by
              rw [hasKeyP_insertPair]
              have hacc : hasKeyP acc k0 = false := by
                refine hdisj k0 ?_
                rw [hasKeyP, hk0]
                simp
              rw [hacc]
              simp only [Bool.false_or, decide_eq_false_iff_not]
              intro hkk
              subst hkk
              rw [hk0] at hknot
              exact absurd hknot (by simp))
          rw [insertPair_append acc k v tl (hdisj k (by rw [hasKeyP]; simp))] at h3
          simp only [List.append_assoc, List.cons_append, List.nil_append,
            List.length_append, List.length_cons, List.length_nil] at h3
          rw [show pre.length + (cs.length + (csv.length + 1) + 1)
              = pre.length + (cs.length + 1) + (csv.length + 1) by omega] at h3
          simp only [decodeDictD, hget, Option.some.injEq]
          rw [if_neg hc101]
          simp only [h1, h2, h3]
          simp only [Except.ok.injEq, Prod.mk.injEq, List.length_cons,
            List.length_append, List.length_nil]
          first
          | omega
          | exact ⟨by trivial, by omega⟩
end

end Bencoding

namespace Bencoding

mutual
theorem fuel_le_V (v : BValue) : ∀ b, encode_next v = some b → fuelV v ≤ b.length := by
  cases v with
  | pynone => intro b he; simp [encode_next] at he
  | int n =>
    intro b he
    rw [encode_next] at he
    simp only [Option.some.injEq] at he
    subst he
    rw [fuelV]
    simp
  | str s =>
    intro b he
    rw [encode_next] at he
    simp only [Option.some.injEq] at he
    subst he
    rw [fuelV]
    simp only [List.length_append, List.length_cons]
    omega
  | list xs =>
    intro b he
    rw [encode_next] at he
    cases hel : encode_list xs with
    | none => rw [hel] at he; simp at he
    | some bs =>
      rw [hel] at he
      simp only [Option.some.injEq] at he
      subst he
      have := fuel_le_L xs bs hel
      rw [fuelV]
      simp only [List.length_cons, List.length_append, List.length_singleton]
      omega
  | dict ps =>
    intro b he
    rw [encode_next] at he
    cases hel : encode_dict ps with
    | none => rw [hel] at he; simp at he
    | some bs =>
      rw [hel] at he
      simp only [Option.some.injEq] at he
      subst he
      have := fuel_le_P ps bs hel
      rw [fuelV]
      simp only [List.length_cons, List.length_append, List.length_singleton]
      omega

theorem fuel_le_L (xs : BList) : ∀ bs, encode_list xs = some bs → fuelL xs ≤ bs.length + 1 := by
  cases xs with
  | nil =>
    intro bs he
    rw [encode_list] at he
    simp only [Option.some.injEq] at he
    subst he
    rw [fuelL]
    simp
  | cons v tl =>
    intro bs he
    rw [encode_list] at he
    cases hev : encode_next v with
    | none => rw [hev] at he; simp at he
    | some bv =>
      cases het : encode_list tl with
      | none => rw [hev, het] at he; simp at he
      | some bt =>
        rw [hev, het] at he
        simp only [Option.some.injEq] at he
        subst he
        have h1 := fuel_le_V v bv hev
        have h2 := fuel_le_L tl bt het
        obtain ⟨c, cs, rfl, -⟩ := encode_head v bv hev
        simp only [List.length_cons] at h1
        have hmax : max (fuelV v) (fuelL tl) ≤ cs.length + 1 + bt.length :=
          Nat.max_le.mpr ⟨by omega, by omega⟩
        rw [fuelL]
        simp only [List.length_append, List.length_cons]
        omega

theorem fuel_le_P (ps : BPairs) : ∀ bs, encode_dict ps = some bs → fuelP ps ≤ bs.length + 1 := by
  cases ps with
  | nil =>
    intro bs he
    rw [encode_dict] at he
    simp only [Option.some.injEq] at he
    subst he
    rw [fuelP]
    simp
  | cons k v tl =>
    intro bs he
    rw [encode_dict] at he
    cases hek : encode_next k with
    | none => rw [hek] at he; simp at he
    | some kb =>
      cases hev : encode_next v with
      | none => rw [hek, hev] at he; simp at he
      | some vb =>
        cases het : encode_dict tl with
        | none => rw [hek, hev, het] at he; simp at he
        | some bt =>
          obtain ⟨c, cs, rfl, -⟩ := encode_head k kb hek
          obtain ⟨cv, csv, rfl, -⟩ := encode_head v vb hev
          rw [hek, hev, het] at he
          simp only [List.cons_ne_nil, ne_eq, not_false_eq_true, and_self, if_true,
            Option.some.injEq] at he
          subst he
          have h1 := fuel_le_V k (c :: cs) hek
          have h2 := fuel_le_V v (cv :: csv) hev
          have h3 := fuel_le_P tl bt het
          simp only [List.length_cons] at h1 h2
          have hmax : max (fuelV k) (max (fuelV v) (fuelP tl))
              ≤ cs.length + 1 + (csv.length + 1) + bt.length :=
            Nat.max_le.mpr ⟨by omega, Nat.max_le.mpr ⟨by omega, by omega⟩⟩
          rw [fuelP]
          simp only [List.length_append, List.length_cons]
          omega
end

end Bencoding

namespace Bencoding

/-- C1: for every canonical bencoded value `v`, `Decoder.decode` applied to the
output of `Encoder.encode` yields `v` (mapping insertion order preserved, since
`BPairs` is order-sensitive and the decoded value is equal to `v` as an ordered
mapping), and for every canonical bencoded byte buffer `b` (a buffer in the
image of the encoder on canonical values, here `b` itself), re-encoding the
decoded value yields `b` byte-identically. -/
theorem C1_bencode_roundtrip (v : BValue) (b : List Nat)
    (hcanon : canonicalV v = true) (henc : encode_next v = some b) :
    decodeValue b = .ok v ∧ ∀ w, decodeValue b = .ok w → encode_next w = some b := by
  have hfuel : fuelV v ≤ b.length + 1 := le_trans (fuel_le_V v b henc) (by omega)
  have h := dec_enc_V v (b.length + 1) [] [] b hcanon henc hfuel
  simp only [List.nil_append, List.append_nil, List.length_nil, Nat.zero_add] at h
  have hdec : decodeValue b = .ok v := by
    rw [decodeValue, h]
    rfl
  refine ⟨hdec, fun w hw => ?_⟩
  rw [hdec] at hw
  cases hw
  exact henc

/-- Witness for C1 at the nested dictionary
`d1:ai123e1:b4:spame` = `{a: 123, b: "spam"}`: both round-trip directions hold
at this concrete canonical value and buffer. -/
theorem C1_bencode_roundtrip_witness :
    canonicalV (.dict (.cons (.str [97]) (.int 123)
        (.cons (.str [98]) (.str [115, 112, 97, 109]) .nil))) = true
    ∧ encode_next (.dict (.cons (.str [97]) (.int 123)
        (.cons (.str [98]) (.str [115, 112, 97, 109]) .nil)))
      = some [100, 49, 58, 97, 105, 49, 50, 51, 101, 49, 58, 98,
              52, 58, 115, 112, 97, 109, 101]
    ∧ decodeValue [100, 49, 58, 97, 105, 49, 50, 51, 101, 49, 58, 98,
              52, 58, 115, 112, 97, 109, 101]
      = .ok (.dict (.cons (.str [97]) (.int 123)
          (.cons (.str [98]) (.str [115, 112, 97, 109]) .nil))) :=
  ⟨by decide, by decide,
    (C1_bencode_roundtrip
      (.dict (.cons (.str [97]) (.int 123)
        (.cons (.str [98]) (.str [115, 112, 97, 109]) .nil)))
      [100, 49, 58, 97, 105, 49, 50, 51, 101, 49, 58, 98,
       52, 58, 115, 112, 97, 109, 101]
      (by decide) (by decide)).1⟩

/-- C8 counterexample: the claim says decoding `b"i-0e"` fails; in the code
`_decode_int` is plain `int(...)`, so it succeeds and returns the integer 0. -/
theorem C8_counterexample : decodeValue [105, 45, 48, 101] = .ok (.int 0) := by
  decide

/-- C8 amended: the decoder accepts `b"i-0e"` (yielding 0) and integers with
leading zeroes such as `b"i007e"` (yielding 7); no integer-canonicality check
is performed. -/
theorem C8_amended :
    decodeValue [105, 45, 48, 101] = .ok (.int 0)
    ∧ decodeValue [105, 48, 48, 55, 101] = .ok (.int 7)
    ∧ decodeValue [105, 48, 101] = .ok (.int 0) := by
  decide

end Bencoding

/-- C2 (code divergence): a metainfo whose `info` holds a `files` key is
recognized as multi-file, and `Torrent._identify_files` succeeds on it,
building one (path, length) entry per file — no `Unsupported` (or any other)
error is raised, contrary to the claim and to the repo's own
`SXSWTorrentTests` test, which expects a `RuntimeError`. -/
theorem C2_multi_file_accepted :
    Torrent.multi_file Torrent.multiMeta = .ok true
    ∧ Torrent.identify_files Torrent.multiMeta
      = .ok [([110, 47, 97], .int 3), ([110, 47, 98, 47, 99], .int 4)] := by decide

/-- C3 (code divergence): on a torrent whose size is an exact multiple of the
piece length (two pieces of 16384 bytes, total 32768), `_initiate_pieces`
builds the non-last piece with its one full block but the last piece with
zero blocks — `last_length = total_size % piece_length = 0` — instead of the
full `piece_length` worth of blocks the claim requires. -/
theorem C3_even_division_empty_last_piece :
    (Client.initiate_pieces ⟨16384, 32768, [[0], [1]]⟩).map
        (fun p => (p.index, p.blocks.map (fun b => b.length)))
      = [(0, [16384]), (1, [])] := by decide

/-- C7 (code divergence): for a registered peer advertising no missing piece
(bitfield all zero, nothing pending or ongoing), `next_request` raises
`ValueError` — `_get_rarest_piece` calls `min` on an empty dict — instead of
returning `None`; an unknown peer does return `None`. -/
theorem C7_next_request_raises :
    (Client.next_request (Client.add_peer
        (Client.initState ⟨16384, 20000, [[0], [1]]⟩) 7 [false, false]) 7 0).1
      = .error .valueError
    ∧ (Client.next_request (Client.initState ⟨16384, 20000, [[0], [1]]⟩) 99 0).1
      = .ok none := by decide

/-- C9 (code divergence): the session loop passes
`first = previous if previous else False`, so the first announce (previous =
None) carries no `event=started` parameter while every later announce
(previous = a positive timestamp) carries it — the opposite of the claim. -/
theorem C9_event_started_inverted :
    Tracker.firstArg none = false
    ∧ Tracker.firstArg (some 1700000000) = true
    ∧ (Tracker.connectParams 1000 (Tracker.firstArg none) 0 0).eventStarted = false
    ∧ (Tracker.connectParams 1000 (Tracker.firstArg (some 1700000000)) 0 100).eventStarted
      = true := by decide

/-- C10: the byte count reported to the tracker is the number of verified
pieces times the nominal `piece_length` (the tail piece counted at full
length), the announce `left` parameter is `total_size` minus that figure, and
on completion of a torrent whose size is not a multiple of `piece_length`
(with the pieces covering the file, `total_size ≤ count × piece_length`) the
reported `left` is negative. -/
theorem C10_downloaded_and_left (t : Client.TorrentD) (s : Client.PMState)
    (first : Bool) (u : Nat)
    (hwf : t.totalSize ≤ t.pieces.length * t.pieceLength) :
    Client.bytes_downloaded t s = s.have_pieces.length * t.pieceLength
    ∧ (Tracker.connectParams t.totalSize first u (Client.bytes_downloaded t s)).left
      = (t.totalSize : Int) - ((s.have_pieces.length * t.pieceLength : Nat) : Int)
    ∧ (Client.complete t s = true → ¬ (t.pieceLength ∣ t.totalSize) →
        (Tracker.connectParams t.totalSize first u (Client.bytes_downloaded t s)).left < 0) := by
  refine ⟨rfl, rfl, fun hcomp hdvd => ?_⟩
  have hlen : s.have_pieces.length = t.pieces.length := by
    rw [Client.complete] at hcomp
    exact beq_iff_eq.mp hcomp
  have hne : t.totalSize ≠ t.pieces.length * t.pieceLength := by
    intro h
    exact hdvd ⟨t.pieces.length, by rw [h, Nat.mul_comm]⟩
  have hlt : t.totalSize < t.pieces.length * t.pieceLength := lt_of_le_of_ne hwf hne
  show (t.totalSize : Int) - ((s.have_pieces.length * t.pieceLength : Nat) : Int) < 0
  rw [hlen]
  push_cast
  omega

/-- Witness for C10 at a two-piece torrent of size 5 with piece length 3
(5 ≤ 6, and 3 does not divide 5) whose manager state holds both pieces
verified: the reported `left` is negative. -/
theorem C10_downloaded_and_left_witness :
    (5 : Nat) ≤ 2 * 3
    ∧ (Tracker.connectParams 5 false 0 (Client.bytes_downloaded ⟨3, 5, [[0], [1]]⟩
        ⟨[], [], [], [], [⟨0, [], []⟩, ⟨1, [], []⟩], []⟩)).left < 0 :=
  ⟨by decide,
    (C10_downloaded_and_left ⟨3, 5, [[0], [1]]⟩
      ⟨[], [], [], [], [⟨0, [], []⟩, ⟨1, [], []⟩], []⟩ false 0
      (by decide)).2.2 (by decide) (by decide)⟩

theorem findIdxQ_pred_aux {α : Type} (f : α → Bool) (d : α) :
    ∀ (l : List α) (s i : Nat), List.findIdx? f l s = some i →
      s ≤ i ∧ f (l.getD (i - s) d) = true := by
  intro l
  induction l with
  | nil => intro s i h; simp [List.findIdx?] at h
  | cons a tl ih =>
    intro s i h
    rw [List.findIdx?_cons] at h
    by_cases hf : f a
    · rw [if_pos hf] at h
      simp only [Option.some.injEq] at h
      subst h
      simp [hf]
    · rw [if_neg hf] at h
      obtain ⟨hle, hpred⟩ := ih (s + 1) i h
      refine ⟨by omega, ?_⟩
      have hstep : i - s = (i - (s + 1)) + 1 := by omega
      rw [hstep, List.getD_cons_succ]
      exact hpred

theorem findIdxQ_pred {α : Type} (f : α → Bool) (d : α) (l : List α) (i : Nat)
    (h : List.findIdx? f l = some i) : f (l.getD i d) = true := by
  have := findIdxQ_pred_aux f d l 0 i h
  simpa using this.2

theorem pieceBlockReceived_index (p : Client.Piece) (off : Nat) (data : List Nat) :
    (Client.pieceBlockReceived p off data).index = p.index := by
  rw [Client.pieceBlockReceived]
  split <;> rfl

theorem pieceReset_status (p : Client.Piece) :
    ∀ b ∈ (Client.pieceReset p).blocks, b.status = Client.BStatus.missing := by
  intro b hb
  rw [Client.pieceReset] at hb
  simp only [List.mem_map] at hb
  obtain ⟨b0, -, rfl⟩ := hb
  rfl

/-- C5: a `block_received` call that completes the ongoing piece at position
`i` (the first ongoing piece with the given index): on a digest match the
piece's concatenated bytes (ascending offset order, `pieceData`) are appended
to the write log at file offset `piece_index * piece_length` and the piece
moves from ongoing to have; on a mismatch nothing is written, `have` is
unchanged, and the piece stays in ongoing with every block reset to
`Missing` — so a piece never enters `have` without a digest match. -/
theorem C5_block_received_verification (H : List Nat → List Nat)
    (t : Client.TorrentD) (s : Client.PMState) (pi off : Nat) (data : List Nat)
    (i : Nat)
    (hfind : s.ongoing_pieces.findIdx? (fun p => p.index == pi) = some i)
    (hcomp : Client.pieceIsComplete (Client.recvPiece s i off data) = true) :
    (Client.recvPiece s i off data).index = pi
    ∧ ((Client.recvPiece s i off data).hash
          = H (Client.pieceData (Client.recvPiece s i off data)) →
        (Client.block_received H t s pi off data).writes
          = s.writes ++ [(pi * t.pieceLength,
              Client.pieceData (Client.recvPiece s i off data))]
        ∧ (Client.block_received H t s pi off data).ongoing_pieces
          = s.ongoing_pieces.eraseIdx i
        ∧ (Client.block_received H t s pi off data).have_pieces
          = s.have_pieces ++ [Client.recvPiece s i off data])
    ∧ ((Client.recvPiece s i off data).hash
          ≠ H (Client.pieceData (Client.recvPiece s i off data)) →
        (Client.block_received H t s pi off data).writes = s.writes
        ∧ (Client.block_received H t s pi off data).have_pieces = s.have_pieces
        ∧ (Client.block_received H t s pi off data).ongoing_pieces
          = s.ongoing_pieces.set i (Client.pieceReset (Client.recvPiece s i off data))
        ∧ ∀ b ∈ (Client.pieceReset (Client.recvPiece s i off data)).blocks,
            b.status = Client.BStatus.missing) := by
  have hidx : (Client.recvPiece s i off data).index = pi := by
    rw [Client.recvPiece, pieceBlockReceived_index]
    exact beq_iff_eq.mp (findIdxQ_pred _ _ _ _ hfind)
  refine ⟨hidx, fun hmatch => ?_, fun hmiss => ?_⟩
  · rw [Client.block_received]
    simp only [Client.recvPiece] at hcomp hmatch hidx ⊢
    simp only [hfind]
    rw [if_pos hcomp, if_pos hmatch]
    refine ⟨?_, rfl, rfl⟩
    rw [hidx]
  · rw [Client.block_received]
    simp only [Client.recvPiece] at hcomp hmiss ⊢
    simp only [hfind]
    rw [if_pos hcomp, if_neg hmiss]
    exact ⟨rfl, rfl, rfl, pieceReset_status _⟩

/-- Witness for C5 at a one-block ongoing piece whose digest matches: the
received block completes the piece, the bytes are written at offset 0, and
the piece moves to have. -/
theorem C5_block_received_verification_witness :
    ((⟨[], [], [], [⟨0, [⟨0, 0, 4, .pending, none⟩], [7, 7]⟩], [], []⟩ :
        Client.PMState).ongoing_pieces.findIdx? (fun p => p.index == 0) = some 0)
    ∧ (Client.block_received (fun _ => [7, 7]) ⟨4, 8, [[1], [7, 7]]⟩
        ⟨[], [], [], [⟨0, [⟨0, 0, 4, .pending, none⟩], [7, 7]⟩], [], []⟩
        0 0 [9, 9, 9, 9]).have_pieces
      = ([] : List Client.Piece)
          ++ [Client.recvPiece
              ⟨[], [], [], [⟨0, [⟨0, 0, 4, .pending, none⟩], [7, 7]⟩], [], []⟩
              0 0 [9, 9, 9, 9]] :=
  ⟨by decide,
    ((C5_block_received_verification (fun _ => [7, 7]) ⟨4, 8, [[1], [7, 7]]⟩
      ⟨[], [], [], [⟨0, [⟨0, 0, 4, .pending, none⟩], [7, 7]⟩], [], []⟩
      0 0 [9, 9, 9, 9] 0 (by decide) (by decide)).2.1 (by decide)).2.2⟩

namespace Protocol

theorem be32b_length (n : Nat) : (be32b n).length = 4 := rfl

theorem be32_take4_be32b (n : Nat) (h : n < 4294967296) (l : List Nat) :
    be32 ((be32b n ++ l).take 4) = n := by
  simp only [be32b, List.cons_append, List.nil_append]
  simp [be32]
  omega

theorem getD4_be32b (n x : Nat) (l : List Nat) :
    ((be32b n ++ x :: l).getD 4 0) = x := by
  simp [be32b]

theorem length_be32b_append (n : Nat) (l : List Nat) :
    (be32b n ++ l).length = 4 + l.length := by
  simp [be32b]
  omega

theorem take_be32b_append (n k : Nat) (l : List Nat) :
    (be32b n ++ l).take (k + 4) = be32b n ++ l.take k := by
  simp [be32b]

theorem drop_be32b_append (n k : Nat) (l : List Nat) :
    (be32b n ++ l).drop (k + 4) = l.drop k := by
  simp [be32b]

theorem drop5_be32b (n x : Nat) (l : List Nat) :
    (be32b n ++ x :: l).drop 5 = l := by
  simp [be32b]

theorem drop9_be32b (n x m : Nat) (l : List Nat) :
    (be32b n ++ x :: (be32b m ++ l)).drop 9 = l := by
  simp [be32b]

theorem drop13_be32b (n x m p : Nat) (l : List Nat) :
    (be32b n ++ x :: (be32b m ++ (be32b p ++ l))).drop 13 = l := by
  simp [be32b]

theorem parse_short (buf : List Nat) (h : buf.length ≤ 4) :
    parse buf = (.ok none, buf) := by
  rw [parse]
  rw [if_neg (by omega)]

theorem parse_keepalive (buf : List Nat) (h4 : 4 < buf.length)
    (h0 : be32 (buf.take 4) = 0) :
    parse buf = (.ok (some .keepAlive), buf) := by
  rw [parse]
  rw [if_pos h4, h0]
  rw [if_pos rfl]

theorem parse_incomplete (buf : List Nat) (h4 : 4 < buf.length)
    (hpos : 0 < be32 (buf.take 4)) (hlen : buf.length < be32 (buf.take 4)) :
    parse buf = (.ok none, buf) := by
  rw [parse]
  rw [if_pos h4]
  rw [if_neg (by omega)]
  rw [if_neg (by omega)]

theorem parse_frame (m : Msg) (rest : List Nat)
    (hv : validMsg m = true) (hk : m ≠ .keepAlive) :
    parse (frameOf m ++ rest) = (.ok (some m), rest) := by
  cases m with
  | keepAlive => exact absurd rfl hk
  | choke => simp [parse, frameOf, be32]
  | unchoke => simp [parse, frameOf, be32]
  | interested => simp [parse, frameOf, be32]
  | notInterested => simp [parse, frameOf, be32]
  | «have» i =>
    simp only [validMsg, decide_eq_true_eq] at hv
    simp [parse, frameOf, be32b, be32, haveDecode]
    simp only [Except.map, Except.ok.injEq, Option.some.injEq, Msg.have.injEq]
    omega
  | request i b l =>
    simp only [validMsg, Bool.and_eq_true, decide_eq_true_eq] at hv
    obtain ⟨⟨hi, hb⟩, hl⟩ := hv
    simp [parse, frameOf, be32b, be32, requestDecode]
    simp only [Except.map, Except.ok.injEq, Option.some.injEq, Msg.request.injEq]
    refine ⟨by omega, by omega, by omega⟩
  | cancel i b l =>
    simp only [validMsg, Bool.and_eq_true, decide_eq_true_eq] at hv
    obtain ⟨⟨hi, hb⟩, hl⟩ := hv
    simp [parse, frameOf, be32b, be32, cancelDecode]
    simp only [Except.map, Except.ok.injEq, Option.some.injEq, Msg.cancel.injEq]
    refine ⟨by omega, by omega, by omega⟩
  | bitField d =>
    simp only [validMsg, decide_eq_true_eq] at hv
    have hv2 : d.length + 1 < 4294967296 := by omega
    simp only [frameOf, List.append_assoc, List.cons_append]
    rw [show (1 : Nat) + d.length = d.length + 1 by omega]
    rw [parse]
    rw [be32_take4_be32b _ hv2]
    rw [if_pos (by
      rw [length_be32b_append]
      simp only [List.length_cons, List.length_append]
      omega)]
    rw [if_neg (by omega)]
    rw [if_pos (by
      rw [length_be32b_append]
      simp only [List.length_cons, List.length_append]
      omega)]
    rw [getD4_be32b]
    rw [if_pos rfl]
    rw [show 4 + (d.length + 1) = (d.length + 1) + 4 by omega]
    rw [take_be32b_append, drop_be32b_append]
    simp only [List.take_succ_cons, List.drop_succ_cons, List.take_left, List.drop_left]
    rw [bitFieldDecode]
    rw [if_neg (by rw [length_be32b_append]; omega)]
    rw [be32_take4_be32b _ hv2]
    rw [if_pos (by
      refine ⟨by omega, ?_⟩
      rw [length_be32b_append]
      simp only [List.length_cons]
      omega)]
    rw [drop5_be32b]
    rfl
  | piece i b blk =>
    simp only [validMsg, Bool.and_eq_true, decide_eq_true_eq] at hv
    obtain ⟨⟨hi, hb⟩, hl⟩ := hv
    have hl2 : blk.length + 9 < 4294967296 := by omega
    simp only [frameOf, List.append_assoc, List.cons_append]
    rw [show (9 : Nat) + blk.length = blk.length + 9 by omega]
    rw [parse]
    rw [be32_take4_be32b _ hl2]
    rw [if_pos (by
      rw [length_be32b_append]
      simp only [List.length_cons, List.length_append, be32b_length]
      omega)]
    rw [if_neg (by omega)]
    rw [if_pos (by
      rw [length_be32b_append]
      simp only [List.length_cons, List.length_append, be32b_length]
      omega)]
    rw [getD4_be32b]
    rw [if_neg (by omega), if_neg (by omega), if_neg (by omega), if_neg (by omega),
      if_neg (by omega), if_neg (by omega), if_pos rfl]
    rw [show 4 + (blk.length + 9) = (blk.length + 9) + 4 by omega]
    rw [take_be32b_append, drop_be32b_append]
    simp only [List.take_succ_cons, List.drop_succ_cons]
    rw [show blk.length + 8 = (blk.length + 4) + 4 by omega]
    rw [take_be32b_append, drop_be32b_append, take_be32b_append, drop_be32b_append]
    rw [List.take_left, List.drop_left]
    rw [pieceDecode]
    rw [if_neg (by rw [length_be32b_append]; omega)]
    rw [be32_take4_be32b _ hl2]
    rw [if_pos (by
      refine ⟨by omega, ?_⟩
      rw [length_be32b_append]
      simp only [List.length_cons, List.length_append, be32b_length]
      omega)]
    rw [drop5_be32b, be32_take4_be32b _ hi]
    rw [drop9_be32b, be32_take4_be32b _ hb]
    rw [take_be32b_append]
    simp only [List.take_succ_cons]
    rw [show blk.length + 8 = (blk.length + 4) + 4 by omega]
    rw [take_be32b_append, take_be32b_append, List.take_length]
    rw [drop13_be32b]
    rfl

end Protocol

/-- C6 counterexample: the 8-byte buffer `00 00 00 05 04 00 00 00` is a Have
frame truncated to fewer than `4 + length-prefix = 9` bytes, yet `parse` does
not yield "no message, no error, buffer intact": the completeness gate is
`len(buffer) >= message_length` (the 4 header bytes are missing from the
comparison), so `Have.decode` runs on 8 bytes and `struct.unpack` raises —
and the buffer has already been consumed past the partial frame. -/
theorem C6_parse_counterexample :
    ([0, 0, 0, 5, 4, 0, 0, 0] : List Nat).length
        < 4 + Protocol.be32 (([0, 0, 0, 5, 4, 0, 0, 0] : List Nat).take 4)
    ∧ Protocol.parse [0, 0, 0, 5, 4, 0, 0, 0] = (.error .structError, []) := by
  decide

/-- C6 amended: (1) a buffer of at most 4 bytes (including a bare KeepAlive
length prefix) yields no message and no error and is left intact; (2) a
buffer of more than 4 bytes whose length prefix is zero yields KeepAlive but
does *not* advance the buffer; (3) a buffer of more than 4 bytes holding
fewer bytes than its (positive) length prefix yields no message, no error,
buffer intact; (4) a buffer starting with a complete frame of any supported
non-KeepAlive message yields exactly that message and advances the buffer
past the frame; and (5) a buffer holding a payload frame truncated to at
least `length-prefix` but fewer than `length-prefix + 4` bytes raises an
error (see the counterexample) — e.g. the truncated Have frame, which errors
with the buffer consumed. -/
theorem C6_parse_amended :
    (∀ buf : List Nat, buf.length ≤ 4 →
        Protocol.parse buf = (.ok none, buf))
    ∧ (∀ buf : List Nat, 4 < buf.length → Protocol.be32 (buf.take 4) = 0 →
        Protocol.parse buf = (.ok (some .keepAlive), buf))
    ∧ (∀ buf : List Nat, 4 < buf.length → 0 < Protocol.be32 (buf.take 4) →
        buf.length < Protocol.be32 (buf.take 4) →
        Protocol.parse buf = (.ok none, buf))
    ∧ (∀ (m : Protocol.Msg) (rest : List Nat), Protocol.validMsg m = true →
        m ≠ .keepAlive →
        Protocol.parse (Protocol.frameOf m ++ rest) = (.ok (some m), rest))
    ∧ Protocol.parse [0, 0, 0, 13, 6, 0, 0, 0, 0, 0, 0, 0, 2, 0]
        = (.error .structError, []) :=
  ⟨Protocol.parse_short, Protocol.parse_keepalive, Protocol.parse_incomplete,
    Protocol.parse_frame, by decide⟩

/-- Witness for C6 at three concrete buffers: the bare KeepAlive prefix (4
bytes, no message), a 5-byte zero-prefix buffer (KeepAlive without
consumption), and the repo test's Have(33) frame followed by two trailing
bytes (message yielded, buffer advanced past the frame). -/
theorem C6_parse_amended_witness :
    Protocol.parse [0, 0, 0, 0] = (.ok none, [0, 0, 0, 0])
    ∧ Protocol.parse [0, 0, 0, 0, 0] = (.ok (some .keepAlive), [0, 0, 0, 0, 0])
    ∧ Protocol.parse (Protocol.frameOf (.have 33) ++ [9, 9])
      = (.ok (some (.have 33)), [9, 9]) :=
  ⟨C6_parse_amended.1 _ (by decide),
   C6_parse_amended.2.1 _ (by decide) (by decide),
   C6_parse_amended.2.2.2.1 (.have 33) [9, 9] (by decide) (by decide)⟩


namespace Client

theorem findIdxQ_bound_aux {α : Type} (f : α → Bool) :
    ∀ (l : List α) (s i : Nat), List.findIdx? f l s = some i → i < s + l.length := by
  intro l
  induction l with
  | nil => intro s i h; simp [List.findIdx?] at h
  | cons a tl ih =>
    intro s i h
    rw [List.findIdx?_cons] at h
    by_cases hf : f a
    · rw [if_pos hf] at h
      simp only [Option.some.injEq] at h
      subst h
      simp only [List.length_cons]
      omega
    · rw [if_neg hf] at h
      have := ih (s + 1) i h
      simp only [List.length_cons]
      omega

theorem findIdxQ_bound {α : Type} (f : α → Bool) (l : List α) (i : Nat)
    (h : List.findIdx? f l = some i) : i < l.length := by
  have := findIdxQ_bound_aux f l 0 i h
  omega

theorem getQ_of_lt {α : Type} (d : α) :
    ∀ (l : List α) (i : Nat), i < l.length → l.get? i = some (l.getD i d) := by
  intro l
  induction l with
  | nil => intro i h; simp at h
  | cons a tl ih =>
    intro i h
    cases i with
    | zero => rfl
    | succ j =>
      simp only [List.length_cons] at h
      simpa [List.getD_cons_succ] using ih j (by omega)

theorem set_same {α : Type} :
    ∀ (l : List α) (i : Nat) (y : α), l.get? i = some y → l.set i y = l := by
  intro l
  induction l with
  | nil => intro i y h; simp at h
  | cons a tl ih =>
    intro i y h
    cases i with
    | zero =>
      simp only [List.get?] at h
      cases h
      rfl
    | succ j =>
      simp only [List.get?] at h
      rw [List.set_cons_succ, ih j y h]

theorem perm_eraseIdx {α : Type} :
    ∀ (l : List α) (i : Nat) (a : α), l.get? i = some a →
      List.Perm l (a :: l.eraseIdx i) := by
  intro l
  induction l with
  | nil => intro i a h; simp at h
  | cons x tl ih =>
    intro i a h
    cases i with
    | zero =>
      simp only [List.get?] at h
      cases h
      exact List.Perm.refl _
    | succ j =>
      simp only [List.get?] at h
      have hp := ih j a h
      simp only [List.eraseIdx_cons_succ]
      have h1 : List.Perm (x :: tl) (x :: a :: tl.eraseIdx j) := List.Perm.cons x hp
      have h2 : List.Perm (x :: a :: tl.eraseIdx j) (a :: x :: tl.eraseIdx j) :=
        List.Perm.swap a x _
      exact h1.trans h2

theorem pieceNextRequest_index (p : Piece) : (pieceNextRequest p).2.index = p.index := by
  rw [pieceNextRequest]
  split <;> rfl

theorem pieceReset_index (p : Piece) : (pieceReset p).index = p.index := rfl

theorem nextOngoingGo_idx (bf : List Bool) :
    ∀ (l l2 : List Piece) (b : Block), nextOngoingGo bf l = some (b, l2) →
      l2.map Piece.index = l.map Piece.index := by
  intro l
  induction l with
  | nil => intro l2 b h; simp [nextOngoingGo] at h
  | cons p tl ih =>
    intro l2 b h
    rw [nextOngoingGo] at h
    by_cases hbf : bfGet bf p.index
    · rw [if_pos hbf] at h
      cases hnr : pieceNextRequest p with
      | mk ob p2 =>
        rw [hnr] at h
        cases ob with
        | some b0 =>
          simp only [Option.some.injEq, Prod.mk.injEq] at h
          obtain ⟨rfl, rfl⟩ := h
          simp only [List.map_cons]
          have hidx : p2.index = p.index := by
            have := pieceNextRequest_index p
            rw [hnr] at this
            exact this
          rw [hidx]
        | none =>
          cases hrec : nextOngoingGo bf tl with
          | none => rw [hrec] at h; simp at h
          | some pr =>
            rw [hrec] at h
            cases pr with
            | mk b1 tl2 =>
              simp only [Option.some.injEq, Prod.mk.injEq] at h
              obtain ⟨rfl, rfl⟩ := h
              simp only [List.map_cons]
              rw [ih tl2 b1 hrec]
    · rw [if_neg hbf] at h
      cases hrec : nextOngoingGo bf tl with
      | none => rw [hrec] at h; simp at h
      | some pr =>
        rw [hrec] at h
        cases pr with
        | mk b1 tl2 =>
          simp only [Option.some.injEq, Prod.mk.injEq] at h
          obtain ⟨rfl, rfl⟩ := h
          simp only [List.map_cons]
          rw [ih tl2 b1 hrec]

theorem rarestFold_mem (peers : List (Nat × List Bool)) :
    ∀ (rest : List (Nat × Piece)) (c0 : Nat × Piece),
      rarestFold peers c0 rest ∈ c0 :: rest := by
  intro rest
  induction rest with
  | nil => intro c0; simp [rarestFold]
  | cons pr tl ih =>
    intro c0
    rw [rarestFold, List.foldl_cons]
    by_cases hc : countOwners peers pr.2.index < countOwners peers c0.2.index
    · rw [if_pos hc]
      have h := ih pr
      rw [rarestFold] at h
      rcases List.mem_cons.mp h with h | h
      · rw [h]
        simp
      · exact List.mem_cons.mpr (Or.inr (List.mem_cons.mpr (Or.inr h)))
    · rw [if_neg hc]
      have h := ih c0
      rw [rarestFold] at h
      rcases List.mem_cons.mp h with h | h
      · rw [h]
        simp
      · exact List.mem_cons.mpr (Or.inr (List.mem_cons.mpr (Or.inr h)))

theorem get_rarest_ok (s : PMState) (bf : List Bool) (pos : Nat) (p : Piece)
    (h : get_rarest_piece s bf = .ok (pos, p)) :
    s.missing_pieces.get? pos = some p := by
  rw [get_rarest_piece] at h
  cases hc : s.missing_pieces.enum.filter (fun pr => bfGet bf pr.2.index) with
  | nil => rw [hc] at h; simp at h
  | cons c0 rest =>
    rw [hc] at h
    simp only [Except.ok.injEq] at h
    have hmem : (pos, p) ∈ c0 :: rest := by
      rw [← h]
      exact rarestFold_mem s.peers rest c0
    have hmem2 : (pos, p) ∈ s.missing_pieces.enum := by
      have := hc ▸ hmem
      exact List.mem_of_mem_filter this
    exact List.mem_enum_iff_get?.mp hmem2

theorem perm_move1 (A A2 B C : List Nat) (x : Nat) (hA : List.Perm A (x :: A2)) :
    List.Perm (A2 ++ (B ++ [x]) ++ C) (A ++ B ++ C) := by
  have s1 : List.Perm (A2 ++ (B ++ [x]) ++ C) (A2 ++ (x :: B) ++ C) :=
    ((List.perm_append_singleton x B).append_left A2).append_right C
  have e1 : A2 ++ (x :: B) ++ C = A2 ++ x :: (B ++ C) := by simp
  have s2 : List.Perm (A2 ++ x :: (B ++ C)) (x :: (A2 ++ (B ++ C))) := List.perm_middle
  have s3 : List.Perm (A ++ B ++ C) (x :: (A2 ++ (B ++ C))) := by
    have h4 : List.Perm (A ++ B ++ C) ((x :: A2) ++ B ++ C) :=
      (hA.append_right B).append_right C
    have e2 : (x :: A2) ++ B ++ C = x :: (A2 ++ (B ++ C)) := by simp
    rw [e2] at h4
    exact h4
  exact ((s1.trans (e1 ▸ s2))).trans s3.symm

theorem perm_move2 (A B B2 C : List Nat) (x : Nat) (hB : List.Perm B (x :: B2)) :
    List.Perm (A ++ B2 ++ (C ++ [x])) (A ++ B ++ C) := by
  have s1 : List.Perm (A ++ B2 ++ (C ++ [x])) (A ++ B2 ++ (x :: C)) :=
    (List.perm_append_singleton x C).append_left (A ++ B2)
  have e1 : A ++ B2 ++ (x :: C) = A ++ (B2 ++ x :: C) := by simp
  have s2 : List.Perm (B2 ++ x :: C) (x :: (B2 ++ C)) := List.perm_middle
  have s3 : List.Perm (x :: (B2 ++ C)) (B ++ C) := by
    have : List.Perm ((x :: B2) ++ C) (B ++ C) := hB.symm.append_right C
    exact this
  have s4 : List.Perm (A ++ (B2 ++ x :: C)) (A ++ (B ++ C)) :=
    (s2.trans s3).append_left A
  have e2 : A ++ (B ++ C) = A ++ B ++ C := by simp
  exact (s1.trans (e1 ▸ s4)).trans (e2 ▸ List.Perm.refl _)

end Client

namespace Client

theorem idxList_eq (s : PMState) :
    idxList s = s.missing_pieces.map Piece.index
      ++ s.ongoing_pieces.map Piece.index ++ s.have_pieces.map Piece.index := by
  rw [idxList]
  simp [List.map_append]

theorem applyOp_idx_perm (H : List Nat → List Nat) (t : TorrentD) (s : PMState)
    (op : Op) : List.Perm (idxList (applyOp H t s op)) (idxList s) := by
  cases op with
  | addPeer pid bf => exact List.Perm.refl _
  | updatePeer pid idx =>
    rw [applyOp, update_peer]
    cases peersGet s.peers pid with
    | none => exact List.Perm.refl _
    | some bf => exact List.Perm.refl _
  | removePeer pid => exact List.Perm.refl _
  | nextReq pid now =>
    cases hg : peersGet s.peers pid with
    | none =>
      rw [applyOp, next_request]
      simp only [hg]
      exact List.Perm.refl _
    | some bf =>
      cases hex : expiredScan bf now s.pending_blocks with
      | error e =>
        rw [applyOp, next_request]
        simp only [hg, hex]
        exact List.Perm.refl _
      | ok u =>
        cases hng : nextOngoingGo bf s.ongoing_pieces with
        | some pr =>
          cases pr with
          | mk b ong2 =>
            have hidx := nextOngoingGo_idx bf s.ongoing_pieces ong2 b hng
            rw [applyOp, next_request]
            simp only [hg, hex, hng, idxList_eq]
            rw [hidx]
        | none =>
          cases hr : get_rarest_piece s bf with
          | error e =>
            rw [applyOp, next_request]
            simp only [hg, hex, hng, hr]
            exact List.Perm.refl _
          | ok pp =>
            cases pp with
            | mk pos p =>
              cases hnr : pieceNextRequest p with
              | mk ob p2 =>
                have hget := get_rarest_ok s bf pos p hr
                have hp2 : p2.index = p.index := by
                  have h0 := pieceNextRequest_index p
                  rw [hnr] at h0
                  exact h0
                have hA : List.Perm (List.map Piece.index s.missing_pieces)
                    (p.index :: List.map Piece.index (s.missing_pieces.eraseIdx pos)) :=
                  (perm_eraseIdx s.missing_pieces pos p hget).map Piece.index
                rw [applyOp, next_request]
                simp only [hg, hex, hng, hr, hnr, idxList_eq,
                  List.map_append, List.map_cons, List.map_nil]
                rw [hp2]
                exact perm_move1 _ _ _ _ _ hA
  | blockRecv pi off data =>
    rw [applyOp]
    cases hfind : List.findIdx? (fun p => p.index == pi) s.ongoing_pieces with
    | none =>
      rw [block_received]
      simp only [hfind]
      exact List.Perm.refl _
    | some i =>
      have hlt : i < s.ongoing_pieces.length := findIdxQ_bound _ _ _ hfind
      have hgetp : s.ongoing_pieces.get? i
          = some (s.ongoing_pieces.getD i ⟨0, [], []⟩) :=
        getQ_of_lt ⟨0, [], []⟩ s.ongoing_pieces i hlt
      have hmap : (s.ongoing_pieces.map Piece.index).get? i
          = some ((s.ongoing_pieces.getD i ⟨0, [], []⟩).index) := by
        rw [List.get?_map, hgetp]
        rfl
      rw [block_received]
      simp only [hfind]
      by_cases hcomp : pieceIsComplete
          (pieceBlockReceived (s.ongoing_pieces.getD i ⟨0, [], []⟩) off data) = true
      · rw [if_pos hcomp]
        by_cases hh : (pieceBlockReceived (s.ongoing_pieces.getD i ⟨0, [], []⟩)
              off data).hash
            = H (pieceData (pieceBlockReceived
                (s.ongoing_pieces.getD i ⟨0, [], []⟩) off data))
        · rw [if_pos hh]
          have hB : List.Perm (List.map Piece.index s.ongoing_pieces)
              ((s.ongoing_pieces.getD i ⟨0, [], []⟩).index
                :: List.map Piece.index (s.ongoing_pieces.eraseIdx i)) :=
            (perm_eraseIdx s.ongoing_pieces i _ hgetp).map Piece.index
          simp only [idxList_eq, List.map_append, List.map_cons, List.map_nil]
          rw [pieceBlockReceived_index]
          exact perm_move2 _ _ _ _ _ hB
        · rw [if_neg hh]
          have hset : (s.ongoing_pieces.set i
              (pieceReset (pieceBlockReceived
                (s.ongoing_pieces.getD i ⟨0, [], []⟩) off data))).map Piece.index
              = s.ongoing_pieces.map Piece.index := by
            rw [List.map_set, pieceReset_index, pieceBlockReceived_index]
            exact set_same _ i _ hmap
          simp only [idxList_eq]
          rw [hset]
      · rw [if_neg hcomp]
        have hset : (s.ongoing_pieces.set i
            (pieceBlockReceived (s.ongoing_pieces.getD i ⟨0, [], []⟩)
              off data)).map Piece.index
            = s.ongoing_pieces.map Piece.index := by
          rw [List.map_set, pieceBlockReceived_index]
          exact set_same _ i _ hmap
        simp only [idxList_eq]
        rw [hset]

theorem applyOps_idx_perm (H : List Nat → List Nat) (t : TorrentD) :
    ∀ (ops : List Op) (s : PMState),
      List.Perm (idxList (applyOps H t s ops)) (idxList s) := by
  intro ops
  induction ops with
  | nil => intro s; exact List.Perm.refl _
  | cons op tl ih =>
    intro s
    rw [applyOps, List.foldl_cons]
    have h1 := ih (applyOp H t s op)
    rw [applyOps] at h1
    exact h1.trans (applyOp_idx_perm H t s op)

theorem init_idx (t : TorrentD) :
    idxList (initState t) = List.range t.pieces.length := by
  simp only [idxList_eq, initState, List.map_nil, List.append_nil]
  rw [initiate_pieces, List.map_map]
  have h : (Piece.index ∘ fun pr : Nat × List Nat =>
      (⟨pr.1, initPieceBlocks t pr.1 t.pieces.length, pr.2⟩ : Piece)) = Prod.fst := rfl
  rw [h]
  exact List.enum_map_fst t.pieces

end Client

/-- C4: for every sequence of piece-manager operations (`add_peer`,
`update_peer`, `remove_peer`, `next_request`, `block_received`) applied from
the initial state, the piece-index multiset of
`missing_pieces ++ ongoing_pieces ++ have_pieces` stays a permutation of
`0, ..., total_pieces - 1`; hence the three list lengths always sum to the
total piece count and the three lists are pairwise disjoint (no piece index
occurring in two of them). -/
theorem C4_partition_invariant (H : List Nat → List Nat) (t : Client.TorrentD)
    (ops : List Client.Op) (s : Client.PMState)
    (hs : s = Client.applyOps H t (Client.initState t) ops) :
    s.missing_pieces.length + s.ongoing_pieces.length + s.have_pieces.length
      = t.pieces.length
    ∧ (∀ i, i ∈ s.missing_pieces.map Client.Piece.index →
        i ∉ s.ongoing_pieces.map Client.Piece.index)
    ∧ (∀ i, i ∈ s.missing_pieces.map Client.Piece.index →
        i ∉ s.have_pieces.map Client.Piece.index)
    ∧ (∀ i, i ∈ s.ongoing_pieces.map Client.Piece.index →
        i ∉ s.have_pieces.map Client.Piece.index) := by
  have hperm : List.Perm (Client.idxList s) (List.range t.pieces.length) := by
    rw [hs, ← Client.init_idx t]
    exact Client.applyOps_idx_perm H t ops (Client.initState t)
  have hlen : (Client.idxList s).length = t.pieces.length := by
    rw [hperm.length_eq, List.length_range]
  have hnodup : (Client.idxList s).Nodup := hperm.symm.nodup (List.nodup_range _)
  rw [Client.idxList_eq] at hlen hnodup
  rw [List.nodup_append, List.nodup_append] at hnodup
  obtain ⟨⟨-, -, hmo⟩, -, hmoh⟩ := hnodup
  refine ⟨?_, ?_, ?_, ?_⟩
  · simp only [List.length_append, List.length_map] at hlen
    omega
  · intro i him hio
    exact hmo him hio
  · intro i him hih
    exact hmoh (List.mem_append.mpr (Or.inl him)) hih
  · intro i hio hih
    exact hmoh (List.mem_append.mpr (Or.inr hio)) hih

/-- Witness for C4: a two-piece torrent, one peer advertising both pieces,
and one `next_request` call, which moves the rarest piece (index 0) from
missing to ongoing; the three lengths sum to 2 and piece index 1, still
missing, is not ongoing. -/
theorem C4_partition_invariant_witness :
    ((Client.applyOps (fun _ => []) ⟨4, 7, [[1], [2]]⟩
        (Client.initState ⟨4, 7, [[1], [2]]⟩)
        [.addPeer 1 [true, true], .nextReq 1 0]).missing_pieces.length
      + (Client.applyOps (fun _ => []) ⟨4, 7, [[1], [2]]⟩
          (Client.initState ⟨4, 7, [[1], [2]]⟩)
          [.addPeer 1 [true, true], .nextReq 1 0]).ongoing_pieces.length
      + (Client.applyOps (fun _ => []) ⟨4, 7, [[1], [2]]⟩
          (Client.initState ⟨4, 7, [[1], [2]]⟩)
          [.addPeer 1 [true, true], .nextReq 1 0]).have_pieces.length = 2)
    ∧ 1 ∉ (Client.applyOps (fun _ => []) ⟨4, 7, [[1], [2]]⟩
          (Client.initState ⟨4, 7, [[1], [2]]⟩)
          [.addPeer 1 [true, true], .nextReq 1 0]).ongoing_pieces.map
            Client.Piece.index := by
  have h := C4_partition_invariant (fun _ => []) ⟨4, 7, [[1], [2]]⟩
    [.addPeer 1 [true, true], .nextReq 1 0]
    (Client.applyOps (fun _ => []) ⟨4, 7, [[1], [2]]⟩
      (Client.initState ⟨4, 7, [[1], [2]]⟩)
      [.addPeer 1 [true, true], .nextReq 1 0]) rfl
  exact ⟨h.1, h.2.1 1 (by decide)⟩
